import Mathlib

/-
  Verification of the FT (file tree) core implemented in src/3FT
  (ft.c, nodeFT.c, checkerFT.c).

  Paths are modelled as their lists of segments (`List String`); the path
  module (path.c) is not among the sources, so its operations are modelled
  from the spec (§4.1).  The dynamic-array utility is out of scope per §1
  of the spec and child arrays are modelled as Lean lists.  malloc outcomes
  are modelled by an explicit oracle (a list of Booleans, one per fallible
  allocation, an exhausted oracle meaning that every allocation succeeds),
  so that the MEMORY_ERROR paths of the insertion code are reachable.
-/

/-- Status codes from a4def.h, as returned by the ft.c / nodeFT.c API. -/
inductive FTStatus where
  | success
  | initializationError
  | badPath
  | conflictingPath
  | noSuchPath
  | notADirectory
  | notAFile
  | alreadyInTree
  | memoryError
deriving DecidableEq, Repr

/-- Modelled from the spec: three-way comparison of two characters by
    code point (§4.1: a segment compare is a character compare). -/
def charCmp (a b : Char) : Ordering :=
  if a < b then .lt else if b < a then .gt else .eq

/-- Modelled from the spec: three-way lexicographic comparison of lists,
    element-wise by `cmp`. -/
def listCmp (cmp : α → α → Ordering) : List α → List α → Ordering
  | [], [] => .eq
  | [], _ :: _ => .lt
  | _ :: _, [] => .gt
  | a :: as, b :: bs =>
    match cmp a b with
    | .eq => listCmp cmp as bs
    | o => o

/-- Modelled from the spec: comparison of two segments, character by
    character. -/
def segCmp (a b : String) : Ordering := listCmp charCmp a.data b.data

/-- Modelled from the spec: Path_comparePath from path.c (not in src/):
    segment-wise lexicographic order (§4.1).  A path value is its list of
    segments. -/
def Path_comparePath (a b : List String) : Ordering := listCmp segCmp a b

/-- Modelled from the spec: Path_getSharedPrefixDepth — the length of the
    longest common segment head of two paths (§4.1). -/
def Path_getSharedPrefixDepth : List String → List String → Nat
  | a :: as, b :: bs =>
    if a = b then 1 + Path_getSharedPrefixDepth as bs else 0
  | _, _ => 0

/-- Modelled from the spec: Path_getDepth, the segment count (§4.1). -/
def Path_getDepth (p : List String) : Nat := p.length

/-- Split a character list at every slash (the segment scan of path.c's
    parser, modelled from the spec's path grammar, §6.2). -/
def splitSegsAux (acc : List Char) : List Char → List (List Char)
  | [] => [acc.reverse]
  | c :: cs =>
    if c = '/' then acc.reverse :: splitSegsAux [] cs
    else splitSegsAux (c :: acc) cs

/-- The slash-separated pieces of a string (so `"a//b"` yields an empty
    middle piece, and a leading or trailing slash an empty end piece). -/
def splitSegs (s : String) : List String :=
  (splitSegsAux [] s.data).map (fun l => { data := l })

/-- Modelled from the spec: Path_new from path.c — parse a slash-delimited
    string, rejecting the empty string, empty segments (leading, trailing
    or doubled slash) and NUL characters (§4.1, §6.2). -/
def Path_new (s : String) : Except FTStatus (List String) :=
  if s = "" then .error .badPath
  else if s.data.contains (Char.ofNat 0) then .error .badPath
  else
    let segs := splitSegs s
    if segs.contains "" then .error .badPath
    else .ok segs

/-- Modelled from the spec: Path_prefix at an in-range index — the first n
    segments (§4.1; every call site in ft.c passes 1 ≤ n ≤ depth, where
    Path_prefix cannot fail). -/
def Path_firstN (p : List String) (n : Nat) : List String := p.take n

/-- Modelled from the spec: Path_getPathname, the canonical slash-joined
    string form (§4.1). -/
def Path_getPathname (p : List String) : String := String.intercalate "/" p

/-- struct node from nodeFT.c:14: path, kind flag, contents buffer with its
    length (file nodes), and the two ordered child arrays (directory
    nodes; file nodes keep them empty, corresponding to the NULL arrays
    of the C).  The parent back-pointer of the C struct is implicit in the
    tree structure; `contents = none` models a NULL contents pointer. -/
inductive Node where
  | mk (path : List String) (isFile : Bool) (contents : Option (List Nat))
       (contentLength : Nat) (fileChildren : List Node) (dirChildren : List Node)
deriving Repr

def Node.path : Node → List String
  | .mk p _ _ _ _ _ => p

def Node.isFile : Node → Bool
  | .mk _ f _ _ _ _ => f

def Node.contents : Node → Option (List Nat)
  | .mk _ _ c _ _ _ => c

def Node.contentLength : Node → Nat
  | .mk _ _ _ l _ _ => l

def Node.fileChildren : Node → List Node
  | .mk _ _ _ _ fs _ => fs

def Node.dirChildren : Node → List Node
  | .mk _ _ _ _ _ ds => ds

mutual
/-- Number of nodes in the subtree rooted at a node (the value returned by
    NodeFT_free, nodeFT.c:422). -/
def Node.size : Node → Nat
  | .mk _ _ _ _ fs ds => 1 + Node.sizeList fs + Node.sizeList ds

def Node.sizeList : List Node → Nat
  | [] => 0
  | n :: ns => Node.size n + Node.sizeList ns
end

/-- The predicate with which a child array is searched: the child's path
    compares equal to the key (NodeFT_comparePathString, nodeFT.c:159;
    Path_compareString agrees with Path_comparePath on the parsed key per
    §4.1). -/
def pathIs (pre : List String) (c : Node) : Bool :=
  Path_comparePath c.path pre == Ordering.eq

/-- NodeFT_hasChild / NodeFT_getChild combined (nodeFT.c:490, nodeFT.c:548):
    DynArray_bsearch of a child array by path key.  On the sorted,
    duplicate-free arrays the tree maintains, binary search returns exactly
    the element comparing equal; it is modelled as the first exact match. -/
def findChild (pre : List String) (l : List Node) : Option Node :=
  l.find? (pathIs pre)

/-- DynArray_addAt at the would-be index reported by DynArray_bsearch
    (NodeFT_insertChild, nodeFT.c:309): insert keeping the array sorted by
    Path_comparePath.  No equal element is ever inserted (the call is
    guarded by the hasChild check), so the placement among equals is
    irrelevant. -/
def insertSorted (c : Node) : List Node → List Node
  | [] => [c]
  | x :: xs =>
    match Path_comparePath c.path x.path with
    | .lt => c :: x :: xs
    | _ => x :: insertSorted c xs

/-- Replace the first element matched by `q` with its image under `f`
    (mutation through the pointer found by DynArray_bsearch). -/
def updateFirst (q : Node → Bool) (f : Node → Node) : List Node → List Node
  | [] => []
  | x :: xs => if q x then f x :: xs else x :: updateFirst q f xs

/-- DynArray_removeAt at the index found by DynArray_bsearch
    (NodeFT_removeFromParent, nodeFT.c:337): remove the first element
    matched by `q`; no removal when nothing matches, as in the C. -/
def eraseFirst (q : Node → Bool) : List Node → List Node
  | [] => []
  | x :: xs => if q x then xs else x :: eraseFirst q xs

/-- One malloc outcome drawn from the allocation oracle. -/
def drawAlloc (allocs : List Bool) : Bool × List Bool :=
  (allocs.headD true, allocs.tail)

/-- NodeFT_setContents (nodeFT.c:625): free the old buffer and install a
    copy of the first newLength bytes of the caller's buffer; a NULL buffer
    or zero length stores NULL contents of length 0.  The oracle is drawn
    only when the C mallocs (nodeFT.c:634). -/
def NodeFT_setContents (n : Node) (newContents : Option (List Nat))
    (newLength : Nat) (allocs : List Bool) : Except FTStatus (Node × List Bool) :=
  match newContents with
  | some buf =>
    if 0 < newLength then
      if (drawAlloc allocs).1 then
        .ok (.mk n.path n.isFile (some (buf.take newLength)) newLength
              n.fileChildren n.dirChildren, (drawAlloc allocs).2)
      else .error .memoryError
    else .ok (.mk n.path n.isFile none 0 n.fileChildren n.dirChildren, allocs)
  | none => .ok (.mk n.path n.isFile none 0 n.fileChildren n.dirChildren, allocs)

/-- NodeFT_insertChild (nodeFT.c:292) seen from the parent: link a child
    into the child array selected by the child's kind, at its sorted
    position.  The ALREADY_IN_TREE duplicate check of nodeFT.c:305 is dead
    at every call site embedded here: the traversal reported no child with
    this path in either array of the attach point, and chain-internal
    parents are freshly created with empty arrays. -/
def attachChild (n c : Node) : Node :=
  if c.isFile then
    .mk n.path n.isFile n.contents n.contentLength
        (insertSorted c n.fileChildren) n.dirChildren
  else
    .mk n.path n.isFile n.contents n.contentLength
        n.fileChildren (insertSorted c n.dirChildren)

/-- NodeFT_toString (nodeFT.c:696). -/
def NodeFT_toString (n : Node) : String :=
  (if n.isFile then "File: " else "Dir:  ") ++ Path_getPathname n.path

/-- Result of FT_traversePath: status, deepest node reached, and the
    bIsFile output flag. -/
structure TravRes where
  status : FTStatus
  furthest : Option Node
  sawFile : Bool
deriving Repr

/-- The loop of FT_traversePath (ft.c:139): starting from `cur` with
    prefix index `i`, follow the child whose path is the next prefix of
    the target, file children searched first; stop with NOT_A_DIRECTORY
    on reaching a file with segments left, and otherwise stop at the
    deepest existing node.  `foundFile` is the running bFoundFile flag.
    The loop runs at most depth − 1 more times once it is at index i, so a
    structural fuel of depth is an upper bound on the remaining
    iterations; the fuel-0 equation coincides with the loop-exit case and
    is never reached from the call sites below. -/
def travLoop (target : List String) :
    (fuel : Nat) → Node → (i : Nat) → (foundFile : Bool) → TravRes
  | 0, cur, _, ff => { status := .success, furthest := some cur, sawFile := ff }
  | fuel + 1, cur, i, ff =>
    if Path_getDepth target < i then
      { status := .success, furthest := some cur, sawFile := ff }
    else
      let pre := Path_firstN target i
      if cur.isFile then
        { status := .notADirectory, furthest := some cur, sawFile := true }
      else
        match findChild pre cur.fileChildren with
        | some child => travLoop target fuel child (i + 1) true
        | none =>
          match findChild pre cur.dirChildren with
          | some child => travLoop target fuel child (i + 1) false
          | none => { status := .success, furthest := some cur, sawFile := ff }

/-- FT_traversePath (ft.c:102): empty tree yields no node; otherwise the
    root must equal the depth-1 prefix of the target, and the loop walks
    from the root with prefix index 2. -/
def FT_traversePath (root : Option Node) (target : List String) : TravRes :=
  match root with
  | none => { status := .success, furthest := none, sawFile := false }
  | some r =>
    if Path_comparePath r.path (Path_firstN target 1) ≠ Ordering.eq then
      { status := .conflictingPath, furthest := none, sawFile := false }
    else travLoop target (Path_getDepth target) r 2 false

/-- The façade state: the three static variables of ft.c (ft.c:24-30). -/
structure FTState where
  isInit : Bool
  root : Option Node
  count : Nat

/-- FT_findNode (ft.c:191): parse, traverse, and require an exact match. -/
def FT_findNode (s : FTState) (pcPath : String) : FTStatus × Option Node :=
  if !s.isInit then (.initializationError, none)
  else
    match Path_new pcPath with
    | .error e => (e, none)
    | .ok target =>
      let t := FT_traversePath s.root target
      if t.status ≠ .success then (t.status, none)
      else
        match t.furthest with
        | none => (.noSuchPath, none)
        | some n =>
          if Path_comparePath n.path target ≠ Ordering.eq then (.noSuchPath, none)
          else (.success, some n)

/-- The chain-construction loop of FT_insertDir / FT_insertFile
    (ft.c:383-404 and ft.c:480-509): create the node holding the first i
    segments of the target for every i from the current index up to the
    full depth, linking each new node under the previous one; on
    FT_insertFile the last node is a file and receives the contents copy.
    Each NodeFT_new draws one allocation outcome (the malloc of
    nodeFT.c:195); NodeFT_setContents draws its own when it allocates.  On
    a failed draw the C frees the partial chain as a unit and leaves the
    tree untouched (FT_handleInsertError, ft.c:238), so the error is
    propagated with no node kept.  The CONFLICTING_PATH / NO_SUCH_PATH
    validation of NodeFT_validateParentChild (nodeFT.c:254) cannot fire on
    these calls — each new node's path extends its parent's path by exactly
    one segment by construction — and is therefore not re-modelled. -/
def buildChain (target : List String) (isF : Bool) (buf : Option (List Nat))
    (len : Nat) :
    (fuel : Nat) → (i : Nat) → List Bool → Except FTStatus (Node × List Bool)
  | 0, _, _ =>
    -- dead: the call sites pass fuel = depth − i + 1 ≥ 1 node to build
    .error .memoryError
  | fuel + 1, i, allocs =>
    if !(drawAlloc allocs).1 then .error .memoryError
    else if i < Path_getDepth target then
      match buildChain target isF buf len fuel (i + 1) (drawAlloc allocs).2 with
      | .error e => .error e
      | .ok (child, rest') =>
        .ok (attachChild (.mk (Path_firstN target i) false none 0 [] []) child, rest')
    else
      if isF then
        match NodeFT_setContents (.mk (Path_firstN target i) true none 0 [] [])
            buf len (drawAlloc allocs).2 with
        | .error e => .error e
        | .ok (n, rest') => .ok (n, rest')
      else .ok (.mk (Path_firstN target i) false none 0 [] [], (drawAlloc allocs).2)

/-- Re-descend from the root along the target exactly as the loop of
    FT_traversePath does, and apply `f` at the node where the walk stops.
    The C instead mutates through the oNCurrNode pointer returned by
    FT_traversePath; re-walking the identical branch structure reaches the
    identical node. -/
def rebuildAlong (target : List String) (f : Node → Node) :
    (fuel : Nat) → Node → (i : Nat) → Node
  | 0, cur, _ => f cur
  | fuel + 1, cur, i =>
    if Path_getDepth target < i then f cur
    else
      let pre := Path_firstN target i
      if cur.isFile then f cur
      else
        match findChild pre cur.fileChildren with
        | some _ =>
          .mk cur.path cur.isFile cur.contents cur.contentLength
              (updateFirst (pathIs pre) (fun c => rebuildAlong target f fuel c (i + 1))
                cur.fileChildren)
              cur.dirChildren
        | none =>
          match findChild pre cur.dirChildren with
          | some _ =>
            .mk cur.path cur.isFile cur.contents cur.contentLength
                cur.fileChildren
                (updateFirst (pathIs pre) (fun c => rebuildAlong target f fuel c (i + 1))
                  cur.dirChildren)
          | none => f cur

/-- FT_insertDir (ft.c:336). -/
def FT_insertDir (s : FTState) (pcPath : String) (allocs : List Bool) :
    FTStatus × FTState :=
  if !s.isInit then (.initializationError, s)
  else
    match Path_new pcPath with
    | .error e => (e, s)
    | .ok target =>
      let t := FT_traversePath s.root target
      if t.status ≠ .success then (t.status, s)
      else if t.furthest.isNone && s.root.isSome then (.conflictingPath, s)
      else if t.sawFile then (.notADirectory, s)
      else
        let d := Path_getDepth target
        let currD := match t.furthest with
          | some n => Path_getDepth n.path
          | none => 0
        if currD = d then
          if Path_comparePath (match t.furthest with
              | some n => n.path
              | none => []) target = Ordering.eq then
            (.alreadyInTree, s)
          else
            -- zero-iteration build loop: no node created, count unchanged
            (.success, s)
        else
          match buildChain target false none 0 (d - currD) (currD + 1) allocs with
          | .error e => (e, s)
          | .ok (chain, _) =>
            let root' : Option Node :=
              match s.root with
              | none => some chain        -- ft.c:408: the first new node becomes the root
              | some r => some (rebuildAlong target (fun n => attachChild n chain) d r 2)
            (.success, { isInit := true, root := root', count := s.count + (d - currD) })

/-- FT_insertFile (ft.c:428).  Note ft.c:458: when the traversal yields no
    node the function returns CONFLICTING_PATH even when the tree is empty
    (unlike FT_insertDir, which also requires a non-null root). -/
def FT_insertFile (s : FTState) (pcPath : String) (pvContents : Option (List Nat))
    (ulLength : Nat) (allocs : List Bool) : FTStatus × FTState :=
  if !s.isInit then (.initializationError, s)
  else
    match Path_new pcPath with
    | .error e => (e, s)
    | .ok target =>
      if Path_getDepth target = 1 then (.conflictingPath, s)
      else
        let t := FT_traversePath s.root target
        if t.status ≠ .success then (t.status, s)
        else
          match t.furthest with
          | none => (.conflictingPath, s)
          | some deepest =>
            if t.sawFile then (.notADirectory, s)
            else
              let d := Path_getDepth target
              let currD := Path_getDepth deepest.path
              if currD = d then
                if Path_comparePath deepest.path target = Ordering.eq then
                  (.alreadyInTree, s)
                else (.success, s)
              else
                match buildChain target true pvContents ulLength (d - currD) (currD + 1) allocs with
                | .error e => (e, s)
                | .ok (chain, _) =>
                  let root' : Option Node :=
                    match s.root with
                    | none => some chain  -- ft.c:513 (dead here: an empty tree was rejected above)
                    | some r => some (rebuildAlong target (fun n => attachChild n chain) d r 2)
                  (.success, { isInit := true, root := root', count := s.count + (d - currD) })

/-- NodeFT_free of a found node as seen at tree level: walk to the parent
    of the target with the same branching as the traversal loop and remove
    the target from the child array selected by the target's kind
    (NodeFT_removeFromParent, nodeFT.c:325; the subtree below it is freed
    recursively and simply disappears from the tree value). -/
def removeAlong (target : List String) (isFileT : Bool) :
    (fuel : Nat) → Node → (i : Nat) → Node
  | 0, cur, _ => cur
  | fuel + 1, cur, i =>
    if Path_getDepth target < i then cur
    else
      let pre := Path_firstN target i
      if cur.isFile then cur
      else if i = Path_getDepth target then
        if isFileT then
          .mk cur.path cur.isFile cur.contents cur.contentLength
              (eraseFirst (pathIs pre) cur.fileChildren) cur.dirChildren
        else
          .mk cur.path cur.isFile cur.contents cur.contentLength
              cur.fileChildren (eraseFirst (pathIs pre) cur.dirChildren)
      else
        match findChild pre cur.fileChildren with
        | some _ =>
          .mk cur.path cur.isFile cur.contents cur.contentLength
              (updateFirst (pathIs pre) (fun c => removeAlong target isFileT fuel c (i + 1))
                cur.fileChildren)
              cur.dirChildren
        | none =>
          match findChild pre cur.dirChildren with
          | some _ =>
            .mk cur.path cur.isFile cur.contents cur.contentLength
                cur.fileChildren
                (updateFirst (pathIs pre) (fun c => removeAlong target isFileT fuel c (i + 1))
                  cur.dirChildren)
          | none => cur

/-- FT_rmDir (ft.c:535): find the node, require a directory, free the
    subtree, subtract the freed count; ft.c:549 nulls the root when the
    count reaches zero.  A root target with a nonzero remaining count would
    leave the C root pointer dangling (freed memory); that unreachable
    state is modelled as a null root. -/
def FT_rmDir (s : FTState) (pcPath : String) : FTStatus × FTState :=
  match FT_findNode s pcPath with
  | (st, none) => (st, s)
  | (_, some n) =>
    if n.isFile then (.notADirectory, s)
    else
      let newCount := s.count - Node.size n
      let removed : Option Node :=
        match s.root with
        | none => none
        | some r =>
          if Path_getDepth n.path = 1 then none
          else some (removeAlong n.path n.isFile (Path_getDepth n.path) r 2)
      (.success, { isInit := s.isInit,
                   root := if newCount = 0 then none else removed,
                   count := newCount })

/-- FT_rmFile (ft.c:566): as FT_rmDir with the kind test inverted. -/
def FT_rmFile (s : FTState) (pcPath : String) : FTStatus × FTState :=
  match FT_findNode s pcPath with
  | (st, none) => (st, s)
  | (_, some n) =>
    if !n.isFile then (.notAFile, s)
    else
      let newCount := s.count - Node.size n
      let removed : Option Node :=
        match s.root with
        | none => none
        | some r =>
          if Path_getDepth n.path = 1 then none
          else some (removeAlong n.path n.isFile (Path_getDepth n.path) r 2)
      (.success, { isInit := s.isInit,
                   root := if newCount = 0 then none else removed,
                   count := newCount })

/-- FT_init (ft.c:290). -/
def FT_init (s : FTState) : FTStatus × FTState :=
  if s.isInit then (.initializationError, s)
  else (.success, { isInit := true, root := none, count := 0 })

/-- FT_destroy (ft.c:307): free the whole tree, subtract the freed count,
    and return to the uninitialized state. -/
def FT_destroy (s : FTState) : FTStatus × FTState :=
  if !s.isInit then (.initializationError, s)
  else
    match s.root with
    | none => (.success, { isInit := false, root := none, count := s.count })
    | some r => (.success, { isInit := false, root := none, count := s.count - Node.size r })

/-- FT_containsDir (ft.c:594). -/
def FT_containsDir (s : FTState) (pcPath : String) : Bool :=
  match FT_findNode s pcPath with
  | (.success, some n) => !n.isFile
  | _ => false

/-- FT_containsFile (ft.c:611). -/
def FT_containsFile (s : FTState) (pcPath : String) : Bool :=
  match FT_findNode s pcPath with
  | (.success, some n) => n.isFile
  | _ => false

/-- FT_getFileContents (ft.c:631): NULL both on any failure and when the
    stored contents are themselves NULL — the single pointer return cannot
    distinguish the two (the caveat of ft.c:628). -/
def FT_getFileContents (s : FTState) (pcPath : String) : Option (List Nat) :=
  match FT_findNode s pcPath with
  | (.success, some n) => if !n.isFile then none else n.contents
  | _ => none

mutual
/-- FT_preOrderTraversal (ft.c:246): current node first, then the file
    children, then the directory children, each recursively; file nodes
    contribute no children (the !NodeFT_isFile guard of ft.c:259). -/
def FT_preOrderTraversal : Node → List Node
  | .mk p f c l fs ds =>
    .mk p f c l fs ds ::
      (if f then [] else preOrderList fs ++ preOrderList ds)

def preOrderList : List Node → List Node
  | [] => []
  | n :: ns => FT_preOrderTraversal n ++ preOrderList ns
end

/-- FT_toString (ft.c:759): NULL when uninitialized; otherwise one line
    per node in pre-order, `NodeFT_toString` plus a newline each, in one
    buffer. -/
def FT_toString (s : FTState) : Option String :=
  if !s.isInit then none
  else
    let nodes := match s.root with
      | none => []
      | some r => FT_preOrderTraversal r
    some ((nodes.map (fun n => NodeFT_toString n ++ "\n")).foldl (· ++ ·) "")

/-- CheckerFT_Node_isValid (checkerFT.c:22): a node is valid when it has no
    parent, or when the shared segment depth of its path and its parent's
    path equals the parent's depth.  The parent pointer of the C is the
    optional parent path carried by the recursion; the NULL-node branch of
    the C cannot arise in the embedding, where every node value exists. -/
def CheckerFT_Node_isValid (parentPath : Option (List String)) (n : Node) : Bool :=
  match parentPath with
  | none => true
  | some pp => Path_getSharedPrefixDepth n.path pp == Path_getDepth pp

/-- Adjacent-pair ordering test of one child array
    (CheckerFT_childrenAreOrdered's loops, checkerFT.c:63 and :81):
    fails only on a strictly descending adjacent pair. -/
def pairsOrdered : List Node → Bool
  | a :: b :: rest =>
    (Path_comparePath a.path b.path != Ordering.gt) && pairsOrdered (b :: rest)
  | _ => true

/-- CheckerFT_childrenAreOrdered (checkerFT.c:55): directory children are
    checked first, then file children. -/
def CheckerFT_childrenAreOrdered (n : Node) : Bool :=
  pairsOrdered n.dirChildren && pairsOrdered n.fileChildren

mutual
/-- CheckerFT_validateTree (checkerFT.c:168): validate the node, reject a
    duplicate path against the seen list, append the node to the seen list,
    and for directories check child ordering and recurse — directory
    children first, then file children (CheckerFT_validateChildren,
    checkerFT.c:124), aborting on the first failure. -/
def CheckerFT_validateTree (parentPath : Option (List String)) (n : Node)
    (seen : List Node) : Bool × List Node :=
  match n with
  | .mk p f c l fs ds =>
    if !CheckerFT_Node_isValid parentPath (.mk p f c l fs ds) then (false, seen)
    else if seen.any (fun m => Path_comparePath m.path p == Ordering.eq) then
      (false, seen)
    else
      let seen1 := seen ++ [Node.mk p f c l fs ds]
      if f then (true, seen1)
      else if !CheckerFT_childrenAreOrdered (.mk p f c l fs ds) then (false, seen1)
      else
        match CheckerFT_validateList p ds seen1 with
        | (false, seen2) => (false, seen2)
        | (true, seen2) => CheckerFT_validateList p fs seen2

def CheckerFT_validateList (pp : List String) (cs : List Node)
    (seen : List Node) : Bool × List Node :=
  match cs with
  | [] => (true, seen)
  | c :: rest =>
    match CheckerFT_validateTree (some pp) c seen with
    | (false, seen') => (false, seen')
    | (true, seen') => CheckerFT_validateList pp rest seen'
end

/-- CheckerFT_isValid (checkerFT.c:203): an uninitialized tree must have a
    null root and zero count; otherwise the tree is validated recursively
    and the number of visited nodes must equal the expected count. -/
def CheckerFT_isValid (isInit : Bool) (root : Option Node) (count : Nat) : Bool :=
  if !isInit then root.isNone && count == 0
  else
    let res := match root with
      | none => (true, ([] : List Node))
      | some r => CheckerFT_validateTree none r []
    if res.2.length != count then false else res.1

/-- One call against the façade, with the oracle of its fallible
    allocations where it has any. -/
inductive FTOp where
  | opInit
  | opInsertDir (p : String) (allocs : List Bool)
  | opInsertFile (p : String) (buf : Option (List Nat)) (len : Nat) (allocs : List Bool)
  | opRmDir (p : String)
  | opRmFile (p : String)
  | opDestroy

/-- The state before process start: the static variables of ft.c zeroed. -/
def FTState.start : FTState := { isInit := false, root := none, count := 0 }

def applyOp (s : FTState) : FTOp → FTState
  | .opInit => (FT_init s).2
  | .opInsertDir p a => (FT_insertDir s p a).2
  | .opInsertFile p b l a => (FT_insertFile s p b l a).2
  | .opRmDir p => (FT_rmDir s p).2
  | .opRmFile p => (FT_rmFile s p).2
  | .opDestroy => (FT_destroy s).2

/-- The façade state after a sequence of calls from process start. -/
def runOps (ops : List FTOp) : FTState := ops.foldl applyOp FTState.start

/-- Number of nodes reachable from the root (0 for a null root). -/
def rootSize : Option Node → Nat
  | none => 0
  | some r => Node.size r

/-! ### Basic properties of the path order -/

theorem charCmp_eq_iff (a b : Char) : charCmp a b = .eq ↔ a = b := by
  unfold charCmp
  split
  · next h => simp [ne_of_lt h]
  · split
    · next h => simp [(ne_of_lt h).symm]
    · next h1 h2 => simp [le_antisymm (not_lt.mp h2) (not_lt.mp h1)]

theorem listCmp_eq_iff {α : Type} {cmp : α → α → Ordering}
    (hc : ∀ a b, cmp a b = .eq ↔ a = b) :
    ∀ l1 l2 : List α, listCmp cmp l1 l2 = .eq ↔ l1 = l2 := by
  intro l1
  induction l1 with
  | nil => intro l2; cases l2 <;> simp [listCmp]
  | cons a as ih =>
    intro l2
    cases l2 with
    | nil => simp [listCmp]
    | cons b bs =>
      simp only [listCmp]
      cases hcmp : cmp a b with
      | eq =>
        have hab : a = b := (hc a b).mp hcmp
        subst hab
        simp [ih bs]
      | lt =>
        have hab : a ≠ b := by
          intro he
          rw [(hc a b).mpr he] at hcmp
          exact Ordering.noConfusion hcmp
        simp [hab]
      | gt =>
        have hab : a ≠ b := by
          intro he
          rw [(hc a b).mpr he] at hcmp
          exact Ordering.noConfusion hcmp
        simp [hab]

theorem segCmp_eq_iff (a b : String) : segCmp a b = .eq ↔ a = b := by
  unfold segCmp
  rw [listCmp_eq_iff charCmp_eq_iff]
  constructor
  · intro h
    cases a
    cases b
    exact congrArg String.mk h
  · intro h; rw [h]

theorem Path_comparePath_eq_iff (a b : List String) :
    Path_comparePath a b = .eq ↔ a = b := by
  unfold Path_comparePath
  exact listCmp_eq_iff segCmp_eq_iff a b

theorem Path_comparePath_self (a : List String) : Path_comparePath a a = .eq :=
  (Path_comparePath_eq_iff a a).mpr rfl

theorem pathIs_iff (pre : List String) (c : Node) :
    pathIs pre c = true ↔ c.path = pre := by
  unfold pathIs
  constructor
  · intro h
    apply (Path_comparePath_eq_iff _ _).mp
    cases hc : Path_comparePath c.path pre
    · rw [hc] at h; exact absurd h (by decide)
    · rfl
    · rw [hc] at h; exact absurd h (by decide)
  · intro h
    rw [(Path_comparePath_eq_iff _ _).mpr h]
    rfl

/-! ### Properties of the child-array helpers -/

theorem sizeList_insertSorted (c : Node) (l : List Node) :
    Node.sizeList (insertSorted c l) = Node.size c + Node.sizeList l := by
  induction l with
  | nil => simp [insertSorted, Node.sizeList]
  | cons x xs ih =>
    simp only [insertSorted]
    split
    · simp [Node.sizeList]
    · simp [Node.sizeList, ih]
      omega

theorem size_attachChild (n c : Node) :
    Node.size (attachChild n c) = Node.size n + Node.size c := by
  cases n with
  | mk p f co l fs ds =>
    unfold attachChild
    split
    · simp only [Node.size, Node.fileChildren, Node.dirChildren, Node.path,
        Node.isFile, Node.contents, Node.contentLength, sizeList_insertSorted]
      omega
    · simp only [Node.size, Node.fileChildren, Node.dirChildren, Node.path,
        Node.isFile, Node.contents, Node.contentLength, sizeList_insertSorted]
      omega

theorem sizeList_updateFirst {q : Node → Bool} {l : List Node} {c : Node}
    (f : Node → Node) (h : l.find? q = some c) :
    Node.sizeList (updateFirst q f l) + Node.size c =
      Node.sizeList l + Node.size (f c) := by
  induction l with
  | nil => simp [List.find?] at h
  | cons x xs ih =>
    rw [List.find?] at h
    by_cases hq : q x
    · rw [hq] at h
      injection h with h
      subst h
      simp [updateFirst, hq, Node.sizeList]
      omega
    · rw [Bool.of_not_eq_true hq] at h
      simp only [updateFirst, hq, if_false]
      simp only [Node.sizeList]
      have := ih h
      omega

theorem sizeList_eraseFirst {q : Node → Bool} {l : List Node} {c : Node}
    (h : l.find? q = some c) :
    Node.sizeList (eraseFirst q l) + Node.size c = Node.sizeList l := by
  induction l with
  | nil => simp [List.find?] at h
  | cons x xs ih =>
    rw [List.find?] at h
    by_cases hq : q x
    · rw [hq] at h
      injection h with h
      subst h
      simp [eraseFirst, hq, Node.sizeList]
      omega
    · rw [Bool.of_not_eq_true hq] at h
      simp only [eraseFirst, hq, if_false]
      simp only [Node.sizeList]
      have := ih h
      omega

theorem find?_updateFirst {q : Node → Bool} {l : List Node} {c : Node}
    (f : Node → Node) (h : l.find? q = some c) (hf : q (f c) = true) :
    (updateFirst q f l).find? q = some (f c) := by
  induction l with
  | nil => simp [List.find?] at h
  | cons x xs ih =>
    rw [List.find?] at h
    by_cases hq : q x
    · rw [hq] at h
      injection h with h
      subst h
      simp [updateFirst, hq, List.find?, hf]
    · rw [Bool.of_not_eq_true hq] at h
      simp [updateFirst, hq, List.find?, Bool.of_not_eq_true hq, ih h]

theorem find?_insertSorted {q : Node → Bool} {l : List Node} {x : Node}
    (h : l.find? q = none) (hx : q x = true) :
    (insertSorted x l).find? q = some x := by
  induction l with
  | nil => simp [insertSorted, List.find?, hx]
  | cons y ys ih =>
    rw [List.find?] at h
    cases hq : q y with
    | true => rw [hq] at h; exact absurd h (by simp)
    | false =>
      rw [hq] at h
      simp only [insertSorted]
      split
      · simp [List.find?, hx]
      · simp [List.find?, hq, ih h]

/-! ### Kind-correctness of the child arrays -/

mutual
/-- Every node of a fileChildren array has isFile set and every node of a
    dirChildren array has it clear, recursively.  NodeFT_insertChild
    (nodeFT.c:302) selects the array by the child's kind, so this holds of
    every reachable tree; NodeFT_removeFromParent (nodeFT.c:334) relies on
    it when it picks the array to delete from by the node's own kind. -/
def kindsOk : Node → Bool
  | .mk _ _ _ _ fs ds => kindsList true fs && kindsList false ds

def kindsList (expect : Bool) : List Node → Bool
  | [] => true
  | c :: cs => ((c.isFile == expect) && kindsOk c) && kindsList expect cs
end

theorem kindsList_find? {e : Bool} {l : List Node} {q : Node → Bool} {c : Node}
    (hk : kindsList e l = true) (h : l.find? q = some c) :
    c.isFile = e ∧ kindsOk c = true := by
  induction l with
  | nil => simp [List.find?] at h
  | cons x xs ih =>
    rw [List.find?] at h
    simp only [kindsList, Bool.and_eq_true] at hk
    by_cases hq : q x
    · rw [hq] at h
      injection h with h
      subst h
      exact ⟨by simpa using hk.1.1, hk.1.2⟩
    · rw [Bool.of_not_eq_true hq] at h
      exact ih hk.2 h

theorem kindsList_insertSorted {e : Bool} {c : Node} {l : List Node}
    (hc : c.isFile = e) (hck : kindsOk c = true) (hl : kindsList e l = true) :
    kindsList e (insertSorted c l) = true := by
  induction l with
  | nil => simp [insertSorted, kindsList, hc, hck]
  | cons x xs ih =>
    simp only [kindsList, Bool.and_eq_true] at hl
    simp only [insertSorted]
    split
    · rw [kindsList, kindsList]
      simp [hc, hck, hl.1.1, hl.1.2, hl.2]
    · rw [kindsList]
      simp [hl.1.1, hl.1.2, ih hl.2]

theorem kindsOk_attachChild {n c : Node} (hn : kindsOk n = true)
    (hc : kindsOk c = true) : kindsOk (attachChild n c) = true := by
  cases n with
  | mk p f co le fs ds =>
    rw [kindsOk, Bool.and_eq_true] at hn
    unfold attachChild
    cases hcf : c.isFile with
    | true =>
      simp only [Node.isFile, Node.path, Node.contents, Node.contentLength,
        Node.fileChildren, Node.dirChildren, if_pos]
      rw [kindsOk, Bool.and_eq_true]
      exact ⟨kindsList_insertSorted hcf hc hn.1, hn.2⟩
    | false =>
      simp only [Node.isFile, Node.path, Node.contents, Node.contentLength,
        Node.fileChildren, Node.dirChildren, Bool.false_eq_true, if_neg,
        not_false_eq_true]
      rw [kindsOk, Bool.and_eq_true]
      exact ⟨hn.1, kindsList_insertSorted hcf hc hn.2⟩

theorem kindsList_updateFirst {e : Bool} {q : Node → Bool} {f : Node → Node}
    {l : List Node}
    (hfile : ∀ x, (f x).isFile = x.isFile)
    (hkeep : ∀ x, kindsOk x = true → kindsOk (f x) = true)
    (hl : kindsList e l = true) :
    kindsList e (updateFirst q f l) = true := by
  induction l with
  | nil => simpa [updateFirst] using hl
  | cons x xs ih =>
    simp only [kindsList, Bool.and_eq_true] at hl
    simp only [updateFirst]
    split
    · rw [kindsList]
      simp [hfile x, hl.1.1, hkeep x hl.1.2, hl.2]
    · rw [kindsList]
      simp [hl.1.1, hl.1.2, ih hl.2]

theorem kindsList_eraseFirst {e : Bool} {q : Node → Bool} {l : List Node}
    (hl : kindsList e l = true) :
    kindsList e (eraseFirst q l) = true := by
  induction l with
  | nil => simpa [eraseFirst] using hl
  | cons x xs ih =>
    simp only [kindsList, Bool.and_eq_true] at hl
    simp only [eraseFirst]
    split
    · exact hl.2
    · rw [kindsList]
      simp [hl.1.1, hl.1.2, ih hl.2]

/-! ### Field preservation of the attach and walk helpers -/

theorem attachChild_path (n c : Node) : (attachChild n c).path = n.path := by
  unfold attachChild
  split
  · rfl
  · rfl

theorem attachChild_isFile (n c : Node) : (attachChild n c).isFile = n.isFile := by
  unfold attachChild
  split
  · rfl
  · rfl

theorem attachChild_of_file {c : Node} (n : Node) (h : c.isFile = true) :
    attachChild n c =
      .mk n.path n.isFile n.contents n.contentLength
          (insertSorted c n.fileChildren) n.dirChildren := by
  unfold attachChild
  rw [h]
  rfl

theorem attachChild_of_dir {c : Node} (n : Node) (h : c.isFile = false) :
    attachChild n c =
      .mk n.path n.isFile n.contents n.contentLength
          n.fileChildren (insertSorted c n.dirChildren) := by
  unfold attachChild
  rw [h]
  rfl

/-- The contents a file node holds after NodeFT_setContents: a copy of the
    first len bytes of the caller's buffer, or NULL for a NULL buffer or a
    zero length (nodeFT.c:632-645). -/
def storedContents (buf : Option (List Nat)) (len : Nat) : Option (List Nat) :=
  match buf with
  | some b => if 0 < len then some (b.take len) else none
  | none => none

/-- The content length stored with `storedContents`. -/
def storedLength (buf : Option (List Nat)) (len : Nat) : Nat :=
  match buf with
  | some _ => if 0 < len then len else 0
  | none => 0

theorem NodeFT_setContents_ok {n : Node} {buf : Option (List Nat)} {len : Nat}
    {allocs : List Bool} {m : Node} {rest : List Bool}
    (h : NodeFT_setContents n buf len allocs = .ok (m, rest)) :
    m = .mk n.path n.isFile (storedContents buf len) (storedLength buf len)
          n.fileChildren n.dirChildren := by
  unfold NodeFT_setContents at h
  cases buf with
  | none =>
    injection h with h
    injection h with h1 h2
    rw [← h1]
    rfl
  | some b =>
    simp only at h
    split at h
    · next hlen =>
      split at h
      · injection h with h
        injection h with h1 h2
        rw [← h1]
        simp [storedContents, storedLength, hlen]
      · exact absurd h (by simp)
    · next hlen =>
      injection h with h
      injection h with h1 h2
      rw [← h1]
      simp [storedContents, storedLength, hlen]

/-! ### Shape of a successfully built chain -/

theorem buildChain_ok {target : List String} {isF : Bool} {buf : Option (List Nat)}
    {len : Nat} :
    ∀ {fuel i : Nat} {allocs rest : List Bool} {chain : Node},
    buildChain target isF buf len fuel i allocs = .ok (chain, rest) →
    i + fuel = Path_getDepth target + 1 →
    Node.size chain = fuel ∧
    chain.path = Path_firstN target i ∧
    kindsOk chain = true ∧
    (i < Path_getDepth target → chain.isFile = false) ∧
    (i = Path_getDepth target → chain.isFile = isF) := by
  intro fuel
  induction fuel with
  | zero =>
    intro i allocs rest chain h hfi
    simp [buildChain] at h
  | succ fuel ih =>
    intro i allocs rest chain h hfi
    simp only [buildChain] at h
    split at h
    · exact absurd h (by simp)
    · split at h
      · next hlt =>
        cases hrec : buildChain target isF buf len fuel (i + 1) (drawAlloc allocs).2 with
        | error e => rw [hrec] at h; exact absurd h (by simp)
        | ok pr =>
          rw [hrec] at h
          obtain ⟨child, rest'⟩ := pr
          simp only at h
          injection h with h
          injection h with h1 h2
          obtain ⟨ihs, ihp, ihk, _, _⟩ := ih hrec (by omega)
          refine ⟨?_, ?_, ?_, ?_, ?_⟩
          · rw [← h1, size_attachChild]
            simp only [Node.size, Node.sizeList]
            omega
          · rw [← h1, attachChild_path]
            rfl
          · rw [← h1]
            exact kindsOk_attachChild (by rfl) ihk
          · intro _
            rw [← h1, attachChild_isFile]
            rfl
          · intro hid
            omega
      · next hge =>
        have hid : i = Path_getDepth target := by omega
        have hf0 : fuel = 0 := by omega
        split at h
        · next hisF =>
          cases hset : NodeFT_setContents
              (.mk (Path_firstN target i) true none 0 [] []) buf len (drawAlloc allocs).2 with
          | error e => rw [hset] at h; exact absurd h (by simp)
          | ok pr =>
            rw [hset] at h
            obtain ⟨m, rest'⟩ := pr
            simp only at h
            injection h with h
            injection h with h1 h2
            have hm := NodeFT_setContents_ok hset
            simp only [Node.path, Node.isFile, Node.fileChildren, Node.dirChildren] at hm
            refine ⟨?_, ?_, ?_, ?_, ?_⟩
            · rw [← h1, hm]
              simp [Node.size, Node.sizeList, hf0]
            · rw [← h1, hm]
              rfl
            · rw [← h1, hm]
              rfl
            · intro hlt2
              omega
            · intro _
              rw [← h1, hm, hisF]
              rfl
        · next hisF =>
          injection h with h
          injection h with h1 h2
          refine ⟨?_, ?_, ?_, ?_, ?_⟩
          · rw [← h1]
            simp [Node.size, Node.sizeList, hf0]
          · rw [← h1]
            rfl
          · rw [← h1]
            rfl
          · intro _
            rw [← h1]
            rfl
          · intro _
            rw [← h1]
            have hisF' : isF = false := by
              cases isF
              · rfl
              · exact absurd rfl hisF
            rw [hisF']
            rfl

theorem Node.size_parts (n : Node) :
    Node.size n = 1 + Node.sizeList n.fileChildren + Node.sizeList n.dirChildren := by
  cases n
  rfl

theorem kindsOk_parts (n : Node) :
    kindsOk n = (kindsList true n.fileChildren && kindsList false n.dirChildren) := by
  cases n
  rfl

theorem rebuildAlong_path {target : List String} {f : Node → Node}
    (hf : ∀ m, (f m).path = m.path) :
    ∀ (fuel : Nat) (cur : Node) (i : Nat),
      (rebuildAlong target f fuel cur i).path = cur.path := by
  intro fuel cur i
  cases fuel with
  | zero => exact hf cur
  | succ fuel =>
    simp only [rebuildAlong]
    split
    · exact hf cur
    · split
      · exact hf cur
      · split
        · rfl
        · split
          · rfl
          · exact hf cur

theorem rebuildAlong_isFile {target : List String} {f : Node → Node}
    (hf : ∀ m, (f m).isFile = m.isFile) :
    ∀ (fuel : Nat) (cur : Node) (i : Nat),
      (rebuildAlong target f fuel cur i).isFile = cur.isFile := by
  intro fuel cur i
  cases fuel with
  | zero => exact hf cur
  | succ fuel =>
    simp only [rebuildAlong]
    split
    · exact hf cur
    · split
      · exact hf cur
      · split
        · rfl
        · split
          · rfl
          · exact hf cur

theorem rebuildAlong_size {target : List String} {f : Node → Node} {k : Nat}
    (hf : ∀ m, Node.size (f m) = Node.size m + k) :
    ∀ (fuel : Nat) (cur : Node) (i : Nat),
      Node.size (rebuildAlong target f fuel cur i) = Node.size cur + k := by
  intro fuel
  induction fuel with
  | zero => intro cur i; exact hf cur
  | succ fuel ih =>
    intro cur i
    simp only [rebuildAlong]
    split
    · exact hf cur
    · split
      · exact hf cur
      · split
        · next c hc =>
          rw [findChild] at hc
          have hupd := sizeList_updateFirst
            (fun x => rebuildAlong target f fuel x (i + 1)) hc
          simp only at hupd
          have hrec := ih c (i + 1)
          rw [Node.size_parts cur]
          simp only [Node.size]
          omega
        · split
          · next c hc =>
            rw [findChild] at hc
            have hupd := sizeList_updateFirst
              (fun x => rebuildAlong target f fuel x (i + 1)) hc
            simp only at hupd
            have hrec := ih c (i + 1)
            rw [Node.size_parts cur]
            simp only [Node.size]
            omega
          · exact hf cur

theorem rebuildAlong_kinds {target : List String} {f : Node → Node}
    (hfile : ∀ m, (f m).isFile = m.isFile)
    (hkeep : ∀ m, kindsOk m = true → kindsOk (f m) = true) :
    ∀ (fuel : Nat) (cur : Node) (i : Nat),
      kindsOk cur = true → kindsOk (rebuildAlong target f fuel cur i) = true := by
  intro fuel
  induction fuel with
  | zero => intro cur i hcur; exact hkeep cur hcur
  | succ fuel ih =>
    intro cur i hcur
    rw [kindsOk_parts, Bool.and_eq_true] at hcur
    simp only [rebuildAlong]
    split
    · exact hkeep cur (by rw [kindsOk_parts, Bool.and_eq_true]; exact hcur)
    · split
      · exact hkeep cur (by rw [kindsOk_parts, Bool.and_eq_true]; exact hcur)
      · split
        · rw [kindsOk_parts, Bool.and_eq_true]
          refine ⟨?_, hcur.2⟩
          exact kindsList_updateFirst (rebuildAlong_isFile hfile fuel · (i + 1))
            (fun x hx => ih x (i + 1) hx) hcur.1
        · split
          · rw [kindsOk_parts, Bool.and_eq_true]
            refine ⟨hcur.1, ?_⟩
            exact kindsList_updateFirst (rebuildAlong_isFile hfile fuel · (i + 1))
              (fun x hx => ih x (i + 1) hx) hcur.2
          · exact hkeep cur (by rw [kindsOk_parts, Bool.and_eq_true]; exact hcur)

/-! ### Shape of the traversal result -/

theorem stopNode_shape {target : List String} {cur : Node} {i : Nat}
    (hcur : cur.path = Path_firstN target (i - 1)) :
    cur.path = Path_firstN target (Path_getDepth cur.path) ∧
    Path_getDepth cur.path ≤ Path_getDepth target := by
  constructor
  · rw [hcur]
    show List.take (i - 1) target =
      List.take (List.take (i - 1) target).length target
    rw [List.length_take]
    rcases le_or_lt (i - 1) target.length with h | h
    · rw [min_eq_left h]
    · rw [min_eq_right (le_of_lt h), List.take_length,
        List.take_of_length_le (le_of_lt h)]
  · rw [hcur]
    show (List.take (i - 1) target).length ≤ target.length
    rw [List.length_take]
    omega

theorem travLoop_furthest {target : List String} :
    ∀ {fuel : Nat} {cur : Node} {i : Nat} {ff : Bool},
    cur.path = Path_firstN target (i - 1) →
    (travLoop target fuel cur i ff).status = .success →
    ∃ n, (travLoop target fuel cur i ff).furthest = some n ∧
      n.path = Path_firstN target (Path_getDepth n.path) ∧
      Path_getDepth n.path ≤ Path_getDepth target := by
  intro fuel
  induction fuel with
  | zero =>
    intro cur i ff hcur _
    exact ⟨cur, rfl, (stopNode_shape hcur).1, (stopNode_shape hcur).2⟩
  | succ fuel ih =>
    intro cur i ff hcur hst
    by_cases hd : Path_getDepth target < i
    · simp only [travLoop, if_pos hd]
      exact ⟨cur, rfl, (stopNode_shape hcur).1, (stopNode_shape hcur).2⟩
    · simp only [travLoop, if_neg hd] at hst ⊢
      by_cases hfile : cur.isFile
      · rw [if_pos hfile] at hst
        simp at hst
      · rw [if_neg hfile] at hst ⊢
        cases hfc : findChild (Path_firstN target i) cur.fileChildren with
        | some child =>
          rw [hfc] at hst
          have hcp : child.path = Path_firstN target i :=
            (pathIs_iff _ _).mp (List.find?_some hfc)
          exact ih (by simpa using hcp) hst
        | none =>
          rw [hfc] at hst
          cases hdc : findChild (Path_firstN target i) cur.dirChildren with
          | some child =>
            rw [hdc] at hst
            have hcp : child.path = Path_firstN target i :=
              (pathIs_iff _ _).mp (List.find?_some hdc)
            exact ih (by simpa using hcp) hst
          | none =>
            rw [hdc] at hst
            exact ⟨cur, rfl, (stopNode_shape hcur).1, (stopNode_shape hcur).2⟩

/-- The file node FT_insertFile's loop creates at the full target depth
    (ft.c:490-501): a file holding a copy of the caller's buffer. -/
def newFileNode (target : List String) (buf : Option (List Nat)) (len : Nat) : Node :=
  .mk target true (storedContents buf len) (storedLength buf len) [] []

theorem travLoop_chain {target : List String} {buf : Option (List Nat)} {len : Nat} :
    ∀ {fuel i : Nat} {allocs rest : List Bool} {chain : Node} {fuel2 : Nat} {ff : Bool},
    buildChain target true buf len fuel i allocs = .ok (chain, rest) →
    i + fuel = Path_getDepth target + 1 →
    Path_getDepth target + 1 ≤ fuel2 + (i + 1) →
    (i = Path_getDepth target → ff = true) →
    travLoop target fuel2 chain (i + 1) ff =
      { status := .success, furthest := some (newFileNode target buf len),
        sawFile := true } := by
  intro fuel
  induction fuel with
  | zero =>
    intro i allocs rest chain fuel2 ff h hfi hf2 hff
    simp [buildChain] at h
  | succ fuel ih =>
    intro i allocs rest chain fuel2 ff h hfi hf2 hff
    simp only [buildChain] at h
    split at h
    · exact absurd h (by simp)
    · split at h
      · next hlt =>
        cases hrec : buildChain target true buf len fuel (i + 1) (drawAlloc allocs).2 with
        | error e => rw [hrec] at h; exact absurd h (by simp)
        | ok pr =>
          rw [hrec] at h
          obtain ⟨child, rest'⟩ := pr
          simp only at h
          injection h with h
          injection h with h1 h2
          obtain ⟨_, hp, _, _, heq5⟩ := buildChain_ok hrec (by omega)
          cases fuel2 with
          | zero => omega
          | succ fuel2 =>
            simp only [travLoop, if_neg (by omega : ¬ Path_getDepth target < i + 1)]
            rw [← h1, attachChild_isFile]
            simp only [Node.isFile, Bool.false_eq_true, if_false]
            have hpc : pathIs (Path_firstN target (i + 1)) child = true :=
              (pathIs_iff _ _).mpr hp
            cases hcf : child.isFile with
            | true =>
              rw [attachChild_of_file _ hcf]
              simp only [Node.fileChildren, Node.dirChildren, insertSorted,
                findChild, List.find?_cons_of_pos _ hpc]
              exact ih hrec (by omega) (by omega) (fun _ => rfl)
            | false =>
              rw [attachChild_of_dir _ hcf]
              simp only [Node.fileChildren, Node.dirChildren, insertSorted,
                findChild, List.find?_nil, List.find?_cons_of_pos _ hpc]
              refine ih hrec (by omega) (by omega) (fun hd => ?_)
              exact absurd (heq5 hd) (by simp [hcf])
      · next hge =>
        have hid : i = Path_getDepth target := by omega
        split at h
        · cases hset : NodeFT_setContents (.mk (Path_firstN target i) true none 0 [] [])
              buf len (drawAlloc allocs).2 with
          | error e => rw [hset] at h; exact absurd h (by simp)
          | ok pr =>
            rw [hset] at h
            obtain ⟨m, rest'⟩ := pr
            simp only at h
            injection h with h
            injection h with h1 h2
            have hm := NodeFT_setContents_ok hset
            simp only [Node.path, Node.isFile, Node.fileChildren, Node.dirChildren] at hm
            have htake : Path_firstN target i = target := by
              rw [hid]
              exact List.take_length target
            have hchain : chain = newFileNode target buf len := by
              rw [← h1, hm, newFileNode, htake]
            have hfftrue : ff = true := hff hid
            cases fuel2 with
            | zero =>
              rw [hchain, hfftrue]
              rfl
            | succ fuel2 =>
              rw [hchain, hfftrue]
              simp only [travLoop, if_pos (by omega : Path_getDepth target < i + 1)]
        · simp at *

theorem Node.path_mk (p : List String) (f : Bool) (c : Option (List Nat))
    (l : Nat) (fs ds : List Node) : Node.path (.mk p f c l fs ds) = p := rfl

theorem Node.isFile_mk (p : List String) (f : Bool) (c : Option (List Nat))
    (l : Nat) (fs ds : List Node) : Node.isFile (.mk p f c l fs ds) = f := rfl

theorem Node.fileChildren_mk (p : List String) (f : Bool) (c : Option (List Nat))
    (l : Nat) (fs ds : List Node) : Node.fileChildren (.mk p f c l fs ds) = fs := rfl

theorem Node.dirChildren_mk (p : List String) (f : Bool) (c : Option (List Nat))
    (l : Nat) (fs ds : List Node) : Node.dirChildren (.mk p f c l fs ds) = ds := rfl

theorem travLoop_rebuild {target : List String} {buf : Option (List Nat)} {len : Nat}
    {allocs rest : List Bool} {chain : Node} {deep : Node} :
    ∀ {fuel : Nat} {cur : Node} {i : Nat} {ff : Bool},
    Path_getDepth target + 1 ≤ fuel + i →
    1 ≤ i →
    cur.path = Path_firstN target (i - 1) →
    travLoop target fuel cur i ff =
      { status := .success, furthest := some deep, sawFile := false } →
    Path_getDepth deep.path < Path_getDepth target →
    buildChain target true buf len
      (Path_getDepth target - Path_getDepth deep.path)
      (Path_getDepth deep.path + 1) allocs = .ok (chain, rest) →
    travLoop target fuel
        (rebuildAlong target (fun n => attachChild n chain) fuel cur i) i ff =
      { status := .success, furthest := some (newFileNode target buf len),
        sawFile := true } := by
  intro fuel
  induction fuel with
  | zero =>
    intro cur i ff hfuel hi hcur htrav hdeep hchain
    simp only [travLoop, TravRes.mk.injEq, Option.some.injEq, true_and] at htrav
    have hfuel' : target.length + 1 ≤ 0 + i := hfuel
    have hlen : Path_getDepth deep.path = Path_getDepth target := by
      rw [← htrav.1, hcur]
      simp only [Path_getDepth, Path_firstN, List.length_take]
      omega
    omega
  | succ fuel ih =>
    intro cur i ff hfuel hi hcur htrav hdeep hchain
    by_cases hd : Path_getDepth target < i
    · simp only [travLoop, if_pos hd, TravRes.mk.injEq, Option.some.injEq,
        true_and] at htrav
      have hd' : target.length < i := hd
      have hlen : Path_getDepth deep.path = Path_getDepth target := by
        rw [← htrav.1, hcur]
        simp only [Path_getDepth, Path_firstN, List.length_take]
        omega
      omega
    · by_cases hfile : cur.isFile
      · simp only [travLoop, if_neg hd, if_pos hfile, TravRes.mk.injEq] at htrav
        exact absurd htrav.1 (by decide)
      · have hfile' : cur.isFile = false := by
          cases hcf0 : cur.isFile
          · rfl
          · exact absurd hcf0 hfile
        cases hfc : findChild (Path_firstN target i) cur.fileChildren with
        | some child =>
          simp only [travLoop, if_neg hd, if_neg hfile, hfc] at htrav
          have hcp : child.path = Path_firstN target i :=
            (pathIs_iff _ _).mp (List.find?_some hfc)
          have hreb : rebuildAlong target (fun n => attachChild n chain)
              (fuel + 1) cur i =
              .mk cur.path cur.isFile cur.contents cur.contentLength
                (updateFirst (pathIs (Path_firstN target i))
                  (fun c => rebuildAlong target (fun n => attachChild n chain)
                    fuel c (i + 1))
                  cur.fileChildren)
                cur.dirChildren := by
            simp only [rebuildAlong, if_neg hd, if_neg hfile, hfc]
          rw [hreb]
          have hgpath : (rebuildAlong target (fun n => attachChild n chain)
              fuel child (i + 1)).path = child.path :=
            rebuildAlong_path (fun m => attachChild_path m chain) fuel child (i + 1)
          have hupd : (updateFirst (pathIs (Path_firstN target i))
              (fun c => rebuildAlong target (fun n => attachChild n chain)
                fuel c (i + 1))
              cur.fileChildren).find? (pathIs (Path_firstN target i)) =
              some (rebuildAlong target (fun n => attachChild n chain)
                fuel child (i + 1)) := by
            refine find?_updateFirst _ hfc ?_
            rw [pathIs_iff, hgpath, hcp]
          simp only [travLoop, if_neg hd, Node.isFile_mk, Node.fileChildren_mk,
            Node.dirChildren_mk, hfile', Bool.false_eq_true, if_false,
            findChild, hupd]
          exact ih (by omega) (by omega) (by simpa using hcp) htrav hdeep hchain
        | none =>
          have hfc' : List.find? (pathIs (Path_firstN target i)) cur.fileChildren =
              none := hfc
          cases hdc : findChild (Path_firstN target i) cur.dirChildren with
          | some child =>
            simp only [travLoop, if_neg hd, if_neg hfile, hfc, hdc] at htrav
            have hcp : child.path = Path_firstN target i :=
              (pathIs_iff _ _).mp (List.find?_some hdc)
            have hreb : rebuildAlong target (fun n => attachChild n chain)
                (fuel + 1) cur i =
                .mk cur.path cur.isFile cur.contents cur.contentLength
                  cur.fileChildren
                  (updateFirst (pathIs (Path_firstN target i))
                    (fun c => rebuildAlong target (fun n => attachChild n chain)
                      fuel c (i + 1))
                    cur.dirChildren) := by
              simp only [rebuildAlong, if_neg hd, if_neg hfile, hfc, hdc]
            rw [hreb]
            have hgpath : (rebuildAlong target (fun n => attachChild n chain)
                fuel child (i + 1)).path = child.path :=
              rebuildAlong_path (fun m => attachChild_path m chain) fuel child (i + 1)
            have hupd : (updateFirst (pathIs (Path_firstN target i))
                (fun c => rebuildAlong target (fun n => attachChild n chain)
                  fuel c (i + 1))
                cur.dirChildren).find? (pathIs (Path_firstN target i)) =
                some (rebuildAlong target (fun n => attachChild n chain)
                  fuel child (i + 1)) := by
              refine find?_updateFirst _ hdc ?_
              rw [pathIs_iff, hgpath, hcp]
            simp only [travLoop, if_neg hd, Node.isFile_mk, Node.fileChildren_mk,
              Node.dirChildren_mk, hfile', Bool.false_eq_true, if_false,
              findChild, hfc', hupd]
            exact ih (by omega) (by omega) (by simpa using hcp) htrav hdeep hchain
          | none =>
            simp only [travLoop, if_neg hd, if_neg hfile, hfc, hdc,
              TravRes.mk.injEq, Option.some.injEq, true_and] at htrav
            have hcd : cur = deep := htrav.1
            have hlen : Path_getDepth deep.path = i - 1 := by
              rw [← hcd, hcur]
              have hd2 : ¬ target.length < i := hd
              simp only [Path_getDepth, Path_firstN, List.length_take]
              omega
            have hreb : rebuildAlong target (fun n => attachChild n chain)
                (fuel + 1) cur i = attachChild cur chain := by
              simp only [rebuildAlong, if_neg hd, if_neg hfile, hfc, hdc]
            rw [hreb]
            rw [hlen] at hchain
            have hieq : i - 1 + 1 = i := by omega
            rw [hieq] at hchain
            obtain ⟨_, hp, _, _, heq5⟩ := buildChain_ok hchain (by omega)
            have hpc : pathIs (Path_firstN target i) chain = true :=
              (pathIs_iff _ _).mpr hp
            cases hcf : chain.isFile with
            | true =>
              rw [attachChild_of_file _ hcf]
              have hins : (insertSorted chain cur.fileChildren).find?
                  (pathIs (Path_firstN target i)) = some chain :=
                find?_insertSorted hfc hpc
              simp only [travLoop, if_neg hd, Node.isFile_mk, Node.fileChildren_mk,
                Node.dirChildren_mk, hfile', Bool.false_eq_true, if_false,
                findChild, hins]
              refine travLoop_chain hchain ?_ ?_ (fun _ => rfl)
              · omega
              · omega
            | false =>
              rw [attachChild_of_dir _ hcf]
              have hins : (insertSorted chain cur.dirChildren).find?
                  (pathIs (Path_firstN target i)) = some chain :=
                find?_insertSorted hdc hpc
              simp only [travLoop, if_neg hd, Node.isFile_mk, Node.fileChildren_mk,
                Node.dirChildren_mk, hfile', Bool.false_eq_true, if_false,
                findChild, hfc', hins]
              refine travLoop_chain hchain ?_ ?_ (fun hd' => ?_)
              · omega
              · omega
              · exact absurd (heq5 hd') (by simp [hcf])

theorem travLoop_exit (target : List String) (fuel : Nat) (cur : Node) (i : Nat)
    (ff : Bool) (hd : Path_getDepth target < i) :
    travLoop target fuel cur i ff =
      { status := .success, furthest := some cur, sawFile := ff } := by
  cases fuel with
  | zero => rfl
  | succ fuel => simp [travLoop, if_pos hd]

theorem travLoop_remove_size {target : List String} :
    ∀ {fuel : Nat} {cur : Node} {i : Nat} {ff : Bool} {n : Node},
    Path_getDepth target + 1 ≤ fuel + i →
    2 ≤ i →
    i ≤ Path_getDepth target →
    cur.path = Path_firstN target (i - 1) →
    kindsOk cur = true →
    (travLoop target fuel cur i ff).status = .success →
    (travLoop target fuel cur i ff).furthest = some n →
    n.path = target →
    Node.size cur = Node.size (removeAlong target n.isFile fuel cur i) + Node.size n := by
  intro fuel
  induction fuel with
  | zero =>
    intro cur i ff n hfuel hi2 hid hcur hk hst hfu hn
    omega
  | succ fuel ih =>
    intro cur i ff n hfuel hi2 hid hcur hk hst hfu hn
    have hd : ¬ Path_getDepth target < i := by omega
    rw [kindsOk_parts, Bool.and_eq_true] at hk
    by_cases hfile : cur.isFile
    · simp only [travLoop, if_neg hd, if_pos hfile] at hst
      exact absurd hst (by decide)
    · have hfile' : cur.isFile = false := by
        cases hcf0 : cur.isFile
        · rfl
        · exact absurd hcf0 hfile
      by_cases hilast : i = Path_getDepth target
      · cases hfc : findChild (Path_firstN target i) cur.fileChildren with
        | some c =>
          simp only [travLoop, if_neg hd, if_neg hfile, hfc,
            travLoop_exit target fuel c (i + 1) true (by omega)] at hfu
          injection hfu with hfu
          subst hfu
          obtain ⟨hcf, _⟩ := kindsList_find? hk.1 hfc
          have hrem : removeAlong target c.isFile (fuel + 1) cur i =
              .mk cur.path cur.isFile cur.contents cur.contentLength
                (eraseFirst (pathIs (Path_firstN target i)) cur.fileChildren)
                cur.dirChildren := by
            simp only [removeAlong, if_neg hd, if_neg hfile, if_pos hilast,
              if_pos hcf]
          rw [hrem]
          have hers := sizeList_eraseFirst hfc
          rw [Node.size_parts cur]
          simp only [Node.size, Node.fileChildren_mk, Node.dirChildren_mk]
          omega
        | none =>
          cases hdc : findChild (Path_firstN target i) cur.dirChildren with
          | some c =>
            simp only [travLoop, if_neg hd, if_neg hfile, hfc, hdc,
              travLoop_exit target fuel c (i + 1) false (by omega)] at hfu
            injection hfu with hfu
            subst hfu
            obtain ⟨hcf, _⟩ := kindsList_find? hk.2 hdc
            have hrem : removeAlong target c.isFile (fuel + 1) cur i =
                .mk cur.path cur.isFile cur.contents cur.contentLength
                  cur.fileChildren
                  (eraseFirst (pathIs (Path_firstN target i)) cur.dirChildren) := by
              simp only [removeAlong, if_neg hd, if_neg hfile, if_pos hilast,
                hcf, Bool.false_eq_true, if_false]
            rw [hrem]
            have hers := sizeList_eraseFirst hdc
            rw [Node.size_parts cur]
            simp only [Node.size, Node.fileChildren_mk, Node.dirChildren_mk]
            omega
          | none =>
            simp only [travLoop, if_neg hd, if_neg hfile, hfc, hdc,
              Option.some.injEq] at hfu
            have hlen := congrArg List.length hn
            rw [← hfu, hcur] at hlen
            simp only [Path_firstN, List.length_take] at hlen
            have hid' : i ≤ target.length := hid
            omega
      · have hlt : i < Path_getDepth target := by omega
        cases hfc : findChild (Path_firstN target i) cur.fileChildren with
        | some c =>
          simp only [travLoop, if_neg hd, if_neg hfile, hfc] at hst hfu
          obtain ⟨hcf, hck⟩ := kindsList_find? hk.1 hfc
          have hcp : c.path = Path_firstN target i :=
            (pathIs_iff _ _).mp (List.find?_some hfc)
          have hrec := ih (by omega) (by omega) (by omega) (by simpa using hcp)
            hck hst hfu hn
          have hrem : removeAlong target n.isFile (fuel + 1) cur i =
              .mk cur.path cur.isFile cur.contents cur.contentLength
                (updateFirst (pathIs (Path_firstN target i))
                  (fun x => removeAlong target n.isFile fuel x (i + 1))
                  cur.fileChildren)
                cur.dirChildren := by
            simp only [removeAlong, if_neg hd, if_neg hfile, if_neg hilast, hfc]
          rw [hrem]
          have hupd := sizeList_updateFirst
            (fun x => removeAlong target n.isFile fuel x (i + 1)) hfc
          simp only at hupd
          rw [Node.size_parts cur]
          simp only [Node.size, Node.fileChildren_mk, Node.dirChildren_mk]
          omega
        | none =>
          cases hdc : findChild (Path_firstN target i) cur.dirChildren with
          | some c =>
            simp only [travLoop, if_neg hd, if_neg hfile, hfc, hdc] at hst hfu
            obtain ⟨hcf, hck⟩ := kindsList_find? hk.2 hdc
            have hcp : c.path = Path_firstN target i :=
              (pathIs_iff _ _).mp (List.find?_some hdc)
            have hrec := ih (by omega) (by omega) (by omega) (by simpa using hcp)
              hck hst hfu hn
            have hrem : removeAlong target n.isFile (fuel + 1) cur i =
                .mk cur.path cur.isFile cur.contents cur.contentLength
                  cur.fileChildren
                  (updateFirst (pathIs (Path_firstN target i))
                    (fun x => removeAlong target n.isFile fuel x (i + 1))
                    cur.dirChildren) := by
              simp only [removeAlong, if_neg hd, if_neg hfile, if_neg hilast, hfc, hdc]
            rw [hrem]
            have hupd := sizeList_updateFirst
              (fun x => removeAlong target n.isFile fuel x (i + 1)) hdc
            simp only at hupd
            rw [Node.size_parts cur]
            simp only [Node.size, Node.fileChildren_mk, Node.dirChildren_mk]
            omega
          | none =>
            simp only [travLoop, if_neg hd, if_neg hfile, hfc, hdc,
              Option.some.injEq] at hfu
            have hlen := congrArg List.length hn
            rw [← hfu, hcur] at hlen
            simp only [Path_firstN, List.length_take] at hlen
            have hlt' : i < target.length := hlt
            omega

theorem removeAlong_isFile (target : List String) (isFileT : Bool) :
    ∀ (fuel : Nat) (cur : Node) (i : Nat),
      (removeAlong target isFileT fuel cur i).isFile = cur.isFile := by
  intro fuel cur i
  cases fuel with
  | zero => rfl
  | succ fuel =>
    simp only [removeAlong]
    split
    · rfl
    · split
      · rfl
      · split
        · split
          · rfl
          · rfl
        · split
          · rfl
          · split
            · rfl
            · rfl

theorem removeAlong_kinds (target : List String) (isFileT : Bool) :
    ∀ (fuel : Nat) (cur : Node) (i : Nat),
      kindsOk cur = true → kindsOk (removeAlong target isFileT fuel cur i) = true := by
  intro fuel
  induction fuel with
  | zero => intro cur i h; exact h
  | succ fuel ih =>
    intro cur i h
    rw [kindsOk_parts, Bool.and_eq_true] at h
    simp only [removeAlong]
    split
    · rw [kindsOk_parts, Bool.and_eq_true]; exact h
    · split
      · rw [kindsOk_parts, Bool.and_eq_true]; exact h
      · split
        · split
          · rw [kindsOk_parts, Bool.and_eq_true, Node.fileChildren_mk,
              Node.dirChildren_mk]
            exact ⟨kindsList_eraseFirst h.1, h.2⟩
          · rw [kindsOk_parts, Bool.and_eq_true, Node.fileChildren_mk,
              Node.dirChildren_mk]
            exact ⟨h.1, kindsList_eraseFirst h.2⟩
        · split
          · rw [kindsOk_parts, Bool.and_eq_true, Node.fileChildren_mk,
              Node.dirChildren_mk]
            refine ⟨?_, h.2⟩
            exact kindsList_updateFirst
              (fun x => removeAlong_isFile target isFileT fuel x (i + 1))
              (fun x hx => ih x (i + 1) hx) h.1
          · split
            · rw [kindsOk_parts, Bool.and_eq_true, Node.fileChildren_mk,
                Node.dirChildren_mk]
              refine ⟨h.1, ?_⟩
              exact kindsList_updateFirst
                (fun x => removeAlong_isFile target isFileT fuel x (i + 1))
                (fun x hx => ih x (i + 1) hx) h.2
            · rw [kindsOk_parts, Bool.and_eq_true]; exact h

theorem Node.size_pos (n : Node) : 1 ≤ Node.size n := by
  rw [Node.size_parts]
  omega

theorem splitSegsAux_ne_nil : ∀ (acc : List Char) (cs : List Char),
    splitSegsAux acc cs ≠ [] := by
  intro acc cs
  induction cs generalizing acc with
  | nil => simp [splitSegsAux]
  | cons c cs ih =>
    simp only [splitSegsAux]
    split
    · simp
    · exact ih (c :: acc)

theorem Path_new_ok_length {p : String} {target : List String}
    (h : Path_new p = .ok target) : 1 ≤ Path_getDepth target := by
  unfold Path_new at h
  split at h
  · exact absurd h (by simp)
  · split at h
    · exact absurd h (by simp)
    · simp only [] at h
      split at h
      · exact absurd h (by simp)
      · injection h with h
        subst h
        simp only [Path_getDepth, splitSegs, List.length_map]
        have := splitSegsAux_ne_nil [] p.data
        cases hsp : splitSegsAux [] p.data with
        | nil => exact absurd hsp this
        | cons a l => simp

/-! ### Inversion of the state-level operations -/

theorem FT_findNode_success {s : FTState} {p : String} {st : FTStatus} {n : Node}
    (h : FT_findNode s p = (st, some n)) :
    st = .success ∧
    s.isInit = true ∧
    ∃ target r,
      Path_new p = .ok target ∧
      s.root = some r ∧
      Path_comparePath r.path (Path_firstN target 1) = .eq ∧
      (travLoop target (Path_getDepth target) r 2 false).status = .success ∧
      (travLoop target (Path_getDepth target) r 2 false).furthest = some n ∧
      n.path = target := by
  unfold FT_findNode at h
  split at h
  · exact absurd h (by simp)
  · next hinit =>
    have hinit' : s.isInit = true := by
      cases hv : s.isInit
      · rw [hv] at hinit; exact absurd rfl hinit
      · rfl
    refine ⟨?_, hinit', ?_⟩
    · split at h
      · exact absurd h (by simp)
      · simp only [] at h
        split at h
        · exact absurd h (by simp)
        · split at h
          · exact absurd h (by simp)
          · split at h
            · exact absurd h (by simp)
            · exact (congrArg Prod.fst h).symm
    split at h
    · exact absurd h (by simp)
    · next target hP =>
      simp only [] at h
      split at h
      · exact absurd h (by simp)
      · next hts =>
        have hts' : (FT_traversePath s.root target).status = .success := by
          by_cases hc : (FT_traversePath s.root target).status = .success
          · exact hc
          · exact absurd hc hts
        split at h
        · exact absurd h (by simp)
        · next n' hfu =>
          split at h
          · exact absurd h (by simp)
          · next hcmp =>
            have hcmp' : Path_comparePath n'.path target = .eq := by
              by_cases hc : Path_comparePath n'.path target = .eq
              · exact hc
              · exact absurd hc hcmp
            have hnn : n' = n := by
              simp only [Prod.mk.injEq, Option.some.injEq] at h
              exact h.2
            subst hnn
            cases hroot : s.root with
            | none =>
              rw [hroot] at hfu
              simp [FT_traversePath] at hfu
            | some r =>
              rw [hroot] at hts' hfu
              simp only [FT_traversePath] at hts' hfu
              split at hts'
              · simp at hts'
              · next hpre =>
                have hpre' : Path_comparePath r.path (Path_firstN target 1) = .eq := by
                  by_cases hc : Path_comparePath r.path (Path_firstN target 1) = .eq
                  · exact hc
                  · exact absurd hc hpre
                rw [if_neg hpre] at hfu
                refine ⟨target, r, hP, rfl, hpre', hts', hfu, ?_⟩
                exact (Path_comparePath_eq_iff _ _).mp hcmp'

theorem Path_new_error {p : String} {e : FTStatus}
    (h : Path_new p = .error e) : e = .badPath := by
  unfold Path_new at h
  split at h
  · injection h with h; exact h.symm
  · split at h
    · injection h with h; exact h.symm
    · simp only [] at h
      split at h
      · injection h with h; exact h.symm
      · exact absurd h (by simp)

theorem NodeFT_setContents_error {n : Node} {buf : Option (List Nat)} {len : Nat}
    {allocs : List Bool} {e : FTStatus}
    (h : NodeFT_setContents n buf len allocs = .error e) : e = .memoryError := by
  unfold NodeFT_setContents at h
  cases buf with
  | none => exact absurd h (by simp)
  | some b =>
    simp only [] at h
    split at h
    · split at h
      · exact absurd h (by simp)
      · injection h with h; exact h.symm
    · exact absurd h (by simp)

theorem buildChain_error {target : List String} {isF : Bool} {buf : Option (List Nat)}
    {len : Nat} :
    ∀ {fuel i : Nat} {allocs : List Bool} {e : FTStatus},
    buildChain target isF buf len fuel i allocs = .error e → e = .memoryError := by
  intro fuel
  induction fuel with
  | zero =>
    intro i allocs e h
    simp only [buildChain] at h
    injection h with h
    exact h.symm
  | succ fuel ih =>
    intro i allocs e h
    simp only [buildChain] at h
    split at h
    · injection h with h; exact h.symm
    · split at h
      · cases hrec : buildChain target isF buf len fuel (i + 1) (drawAlloc allocs).2 with
        | error e2 =>
          rw [hrec] at h
          injection h with h
          rw [← h]
          exact ih hrec
        | ok pr => rw [hrec] at h; exact absurd h (by simp)
      · split at h
        · cases hset : NodeFT_setContents (.mk (Path_firstN target i) true none 0 [] [])
              buf len (drawAlloc allocs).2 with
          | error e2 =>
            rw [hset] at h
            injection h with h
            rw [← h]
            exact NodeFT_setContents_error hset
          | ok pr => rw [hset] at h; exact absurd h (by simp)
        · exact absurd h (by simp)

theorem TravRes.eq_mk {x : TravRes} {a : FTStatus} {b : Option Node} {c : Bool}
    (h1 : x.status = a) (h2 : x.furthest = b) (h3 : x.sawFile = c) :
    x = ⟨a, b, c⟩ := by
  cases x
  subst h1
  subst h2
  subst h3
  rfl

theorem FT_insertFile_success {s : FTState} {p : String} {buf : Option (List Nat)}
    {len : Nat} {allocs : List Bool} {s' : FTState}
    (h : FT_insertFile s p buf len allocs = (.success, s')) :
    ∃ target r deep chain rest,
      s.isInit = true ∧
      Path_new p = .ok target ∧
      s.root = some r ∧
      Path_comparePath r.path (Path_firstN target 1) = .eq ∧
      travLoop target (Path_getDepth target) r 2 false =
        { status := .success, furthest := some deep, sawFile := false } ∧
      Path_getDepth deep.path < Path_getDepth target ∧
      buildChain target true buf len
        (Path_getDepth target - Path_getDepth deep.path)
        (Path_getDepth deep.path + 1) allocs = .ok (chain, rest) ∧
      s' = { isInit := true,
             root := some (rebuildAlong target (fun n => attachChild n chain)
               (Path_getDepth target) r 2),
             count := s.count + (Path_getDepth target - Path_getDepth deep.path) } := by
  unfold FT_insertFile at h
  split at h
  · exact absurd h (by simp)
  · next hinit =>
    have hinit' : s.isInit = true := by
      cases hv : s.isInit
      · rw [hv] at hinit; exact absurd rfl hinit
      · rfl
    split at h
    · next e he =>
      rw [Path_new_error he] at h
      exact absurd h (by simp)
    · next target hP =>
      split at h
      · exact absurd h (by simp)
      · next hd1 =>
        simp only [] at h
        split at h
        · next hts0 => exact absurd (congrArg Prod.fst h) hts0
        · next hts =>
          have hts' : (FT_traversePath s.root target).status = .success := by
            by_cases hc : (FT_traversePath s.root target).status = .success
            · exact hc
            · exact absurd hc hts
          split at h
          · exact absurd h (by simp)
          · next deepest hfu =>
            split at h
            · exact absurd h (by simp)
            · next hsf =>
              have hsf' : (FT_traversePath s.root target).sawFile = false := by
                cases hv : (FT_traversePath s.root target).sawFile
                · rfl
                · rw [hv] at hsf; exact absurd rfl hsf
              cases hroot : s.root with
              | none =>
                rw [hroot] at hfu
                simp [FT_traversePath] at hfu
              | some r =>
                rw [hroot] at hts' hfu hsf' h
                simp only [FT_traversePath] at hts' hfu hsf'
                split at hts'
                · simp at hts'
                · next hpre =>
                  have hpre' : Path_comparePath r.path (Path_firstN target 1) = .eq := by
                    by_cases hc : Path_comparePath r.path (Path_firstN target 1) = .eq
                    · exact hc
                    · exact absurd hc hpre
                  rw [if_neg hpre] at hfu hsf'
                  have htrec : travLoop target (Path_getDepth target) r 2 false =
                      ⟨.success, some deepest, false⟩ :=
                    TravRes.eq_mk hts' hfu hsf'
                  have hcur : r.path = Path_firstN target (2 - 1) := by
                    simpa using (Path_comparePath_eq_iff _ _).mp hpre'
                  obtain ⟨m, hm1, hm2, hm3⟩ :=
                    @travLoop_furthest target (Path_getDepth target) r 2 false
                      hcur (by simp [htrec])
                  rw [htrec] at hm1
                  simp only [Option.some.injEq] at hm1
                  subst hm1
                  split at h
                  · next hcd =>
                    split at h
                    · exact absurd h (by simp)
                    · next hcmp =>
                      exfalso
                      apply hcmp
                      rw [hm2, hcd]
                      rw [show Path_firstN target (Path_getDepth target) = target from
                        List.take_length target]
                      exact Path_comparePath_self target
                  · next hcd =>
                    have hlt : Path_getDepth deepest.path < Path_getDepth target := by
                      omega
                    cases hbc : buildChain target true buf len
                        (Path_getDepth target - Path_getDepth deepest.path)
                        (Path_getDepth deepest.path + 1) allocs with
                    | error e =>
                      rw [hbc] at h
                      rw [buildChain_error hbc] at h
                      exact absurd h (by simp)
                    | ok pr =>
                      rw [hbc] at h
                      obtain ⟨chain, rest⟩ := pr
                      simp only [Prod.mk.injEq] at h
                      refine ⟨target, r, deepest, chain, rest, hinit', hP, rfl,
                        hpre', htrec, hlt, hbc, ?_⟩
                      exact h.2.symm

theorem FT_insertDir_success {s : FTState} {p : String} {allocs : List Bool}
    {s' : FTState} (h : FT_insertDir s p allocs = (.success, s')) :
    ∃ target chain rest currD,
      s.isInit = true ∧
      Path_new p = .ok target ∧
      currD < Path_getDepth target ∧
      buildChain target false none 0 (Path_getDepth target - currD) (currD + 1) allocs
        = .ok (chain, rest) ∧
      ((s.root = none ∧
         s' = { isInit := true, root := some chain,
                count := s.count + (Path_getDepth target - currD) }) ∨
       (∃ r, s.root = some r ∧
         s' = { isInit := true,
                root := some (rebuildAlong target (fun n => attachChild n chain)
                  (Path_getDepth target) r 2),
                count := s.count + (Path_getDepth target - currD) })) := by
  unfold FT_insertDir at h
  split at h
  · exact absurd h (by simp)
  · next hinit =>
    have hinit' : s.isInit = true := by
      cases hv : s.isInit
      · rw [hv] at hinit; exact absurd rfl hinit
      · rfl
    split at h
    · next e he =>
      rw [Path_new_error he] at h
      exact absurd h (by simp)
    · next target hP =>
      simp only [] at h
      split at h
      · next hts0 => exact absurd (congrArg Prod.fst h) hts0
      · next hts =>
        have hts' : (FT_traversePath s.root target).status = .success := by
          by_cases hc : (FT_traversePath s.root target).status = .success
          · exact hc
          · exact absurd hc hts
        split at h
        · exact absurd h (by simp)
        · next hc1 =>
          split at h
          · exact absurd h (by simp)
          · next hsf =>
            have hsf' : (FT_traversePath s.root target).sawFile = false := by
              cases hv : (FT_traversePath s.root target).sawFile
              · rfl
              · rw [hv] at hsf; exact absurd rfl hsf
            cases hfu : (FT_traversePath s.root target).furthest with
            | none =>
              have hroot : s.root = none := by
                cases hro : s.root with
                | none => rfl
                | some r =>
                  exfalso
                  apply hc1
                  rw [hfu, hro]
                  rfl
              rw [hfu] at h
              simp only [] at h
              split at h
              · next hcd =>
                have := Path_new_ok_length hP
                omega
              · next hcd =>
                cases hbc : buildChain target false none 0
                    (Path_getDepth target - 0) (0 + 1) allocs with
                | error e =>
                  rw [hbc] at h
                  rw [buildChain_error hbc] at h
                  exact absurd h (by simp)
                | ok pr =>
                  rw [hbc] at h
                  obtain ⟨chain, rest⟩ := pr
                  rw [hroot] at h
                  simp only [Prod.mk.injEq] at h
                  refine ⟨target, chain, rest, 0, hinit', hP, by omega, hbc,
                    Or.inl ⟨hroot, h.2.symm⟩⟩
            | some deep =>
              cases hroot : s.root with
              | none =>
                rw [hroot] at hfu
                simp [FT_traversePath] at hfu
              | some r =>
                rw [hroot] at hts' hfu hsf' h
                have hfu0 := hfu
                simp only [FT_traversePath] at hts' hfu hsf'
                split at hts'
                · simp at hts'
                · next hpre =>
                  rw [if_neg hpre] at hfu hsf'
                  have htrec : travLoop target (Path_getDepth target) r 2 false =
                      ⟨.success, some deep, false⟩ :=
                    TravRes.eq_mk hts' hfu hsf'
                  have hpre' : Path_comparePath r.path (Path_firstN target 1) = .eq := by
                    by_cases hc : Path_comparePath r.path (Path_firstN target 1) = .eq
                    · exact hc
                    · exact absurd hc hpre
                  have hcur : r.path = Path_firstN target (2 - 1) := by
                    simpa using (Path_comparePath_eq_iff _ _).mp hpre'
                  obtain ⟨m, hm1, hm2, hm3⟩ :=
                    @travLoop_furthest target (Path_getDepth target) r 2 false
                      hcur (by simp [htrec])
                  rw [htrec] at hm1
                  simp only [Option.some.injEq] at hm1
                  subst hm1
                  rw [hfu0] at h
                  simp only [] at h
                  split at h
                  · next hcd =>
                    split at h
                    · exact absurd h (by simp)
                    · next hcmp =>
                      exfalso
                      apply hcmp
                      rw [hm2, hcd]
                      rw [show Path_firstN target (Path_getDepth target) = target from
                        List.take_length target]
                      exact Path_comparePath_self target
                  · next hcd =>
                    cases hbc : buildChain target false none 0
                        (Path_getDepth target - Path_getDepth deep.path)
                        (Path_getDepth deep.path + 1) allocs with
                    | error e =>
                      rw [hbc] at h
                      rw [buildChain_error hbc] at h
                      exact absurd h (by simp)
                    | ok pr =>
                      rw [hbc] at h
                      obtain ⟨chain, rest⟩ := pr
                      simp only [Prod.mk.injEq] at h
                      refine ⟨target, chain, rest, Path_getDepth deep.path,
                        hinit', hP, by omega, hbc,
                        Or.inr ⟨r, rfl, h.2.symm⟩⟩

/-! ### Every non-success return of the insert operations leaves the state alone -/

theorem FT_insertDir_err {s : FTState} {p : String} {allocs : List Bool}
    {e : FTStatus} {s2 : FTState}
    (h : FT_insertDir s p allocs = (e, s2)) (hne : e ≠ .success) : s2 = s := by
  unfold FT_insertDir at h
  split at h
  · injection h with h1 h2; exact h2.symm
  · split at h
    · injection h with h1 h2; exact h2.symm
    · simp only [] at h
      split at h
      · injection h with h1 h2; exact h2.symm
      · split at h
        · injection h with h1 h2; exact h2.symm
        · split at h
          · injection h with h1 h2; exact h2.symm
          · split at h
            · split at h
              · injection h with h1 h2; exact h2.symm
              · injection h with h1 h2; exact absurd h1.symm hne
            · split at h
              · injection h with h1 h2; exact h2.symm
              · injection h with h1 h2; exact absurd h1.symm hne

theorem FT_insertFile_err {s : FTState} {p : String} {buf : Option (List Nat)}
    {len : Nat} {allocs : List Bool} {e : FTStatus} {s2 : FTState}
    (h : FT_insertFile s p buf len allocs = (e, s2)) (hne : e ≠ .success) :
    s2 = s := by
  unfold FT_insertFile at h
  split at h
  · injection h with h1 h2; exact h2.symm
  · split at h
    · injection h with h1 h2; exact h2.symm
    · split at h
      · injection h with h1 h2; exact h2.symm
      · simp only [] at h
        split at h
        · injection h with h1 h2; exact h2.symm
        · split at h
          · injection h with h1 h2; exact h2.symm
          · split at h
            · injection h with h1 h2; exact h2.symm
            · split at h
              · split at h
                · injection h with h1 h2; exact h2.symm
                · injection h with h1 h2; exact absurd h1.symm hne
              · split at h
                · injection h with h1 h2; exact h2.symm
                · injection h with h1 h2; exact absurd h1.symm hne

/-! ### The count/structure invariant of the façade state -/

/-- The invariant of claim C4 (spec §8.1.4), strengthened with the
    kind-correctness of the child arrays that NodeFT_removeFromParent
    relies on: the façade's count equals the number of nodes reachable
    from the root. -/
def stateOk (s : FTState) : Prop :=
  s.count = rootSize s.root ∧ ∀ r, s.root = some r → kindsOk r = true

theorem FT_init_ok {s : FTState} {e : FTStatus} {s2 : FTState}
    (h : FT_init s = (e, s2)) (hs : stateOk s) : stateOk s2 := by
  unfold FT_init at h
  split at h
  · injection h with h1 h2; rw [← h2]; exact hs
  · injection h with h1 h2
    rw [← h2]
    exact ⟨rfl, by intro r hr; exact absurd hr (by simp)⟩

theorem FT_destroy_ok {s : FTState} {e : FTStatus} {s2 : FTState}
    (h : FT_destroy s = (e, s2)) (hs : stateOk s) : stateOk s2 := by
  unfold FT_destroy at h
  split at h
  · injection h with h1 h2; rw [← h2]; exact hs
  · split at h
    · next hroot =>
      injection h with h1 h2
      rw [← h2]
      refine ⟨?_, by intro r hr; exact absurd hr (by simp)⟩
      have := hs.1
      rw [hroot] at this
      simpa [rootSize] using this
    · next r hroot =>
      injection h with h1 h2
      rw [← h2]
      refine ⟨?_, by intro r' hr; exact absurd hr (by simp)⟩
      have := hs.1
      rw [hroot] at this
      simp only [rootSize] at this
      simp [rootSize, this]

theorem FT_insertDir_ok {s : FTState} {p : String} {allocs : List Bool}
    {e : FTStatus} {s2 : FTState}
    (h : FT_insertDir s p allocs = (e, s2)) (hs : stateOk s) : stateOk s2 := by
  by_cases he : e = .success
  · subst he
    obtain ⟨target, chain, rest, currD, _, _, hlt, hbc, hcase⟩ :=
      FT_insertDir_success h
    obtain ⟨hsz, _, hk, _, _⟩ := buildChain_ok hbc (by omega)
    cases hcase with
    | inl hc =>
      obtain ⟨hroot, hs2⟩ := hc
      rw [hs2]
      refine ⟨?_, ?_⟩
      · have h0 : s.count = 0 := by
          have := hs.1
          rw [hroot] at this
          simpa [rootSize] using this
        simp only [rootSize, h0, hsz]
        omega
      · intro r hr
        simp only [Option.some.injEq] at hr
        rw [← hr]
        exact hk
    | inr hc =>
      obtain ⟨r, hroot, hs2⟩ := hc
      rw [hs2]
      have hkr : kindsOk r = true := hs.2 r hroot
      have hcnt : s.count = Node.size r := by
        have := hs.1
        rw [hroot] at this
        simpa [rootSize] using this
      refine ⟨?_, ?_⟩
      · have hrebs := @rebuildAlong_size target (fun n => attachChild n chain)
          (Node.size chain) (fun m => size_attachChild m chain)
          (Path_getDepth target) r 2
        simp only [rootSize, hrebs, hcnt, hsz]
      · intro r' hr'
        simp only [Option.some.injEq] at hr'
        rw [← hr']
        exact rebuildAlong_kinds (fun m => attachChild_isFile m chain)
          (fun m hm => kindsOk_attachChild hm hk) (Path_getDepth target) r 2 hkr
  · rw [FT_insertDir_err h he]
    exact hs

theorem FT_insertFile_ok {s : FTState} {p : String} {buf : Option (List Nat)}
    {len : Nat} {allocs : List Bool} {e : FTStatus} {s2 : FTState}
    (h : FT_insertFile s p buf len allocs = (e, s2)) (hs : stateOk s) :
    stateOk s2 := by
  by_cases he : e = .success
  · subst he
    obtain ⟨target, r, deep, chain, rest, _, _, hroot, _, _, hlt, hbc, hs2⟩ :=
      FT_insertFile_success h
    obtain ⟨hsz, _, hk, _, _⟩ := buildChain_ok hbc (by omega)
    rw [hs2]
    have hkr : kindsOk r = true := hs.2 r hroot
    have hcnt : s.count = Node.size r := by
      have := hs.1
      rw [hroot] at this
      simpa [rootSize] using this
    refine ⟨?_, ?_⟩
    · have hrebs := @rebuildAlong_size target (fun n => attachChild n chain)
        (Node.size chain) (fun m => size_attachChild m chain)
        (Path_getDepth target) r 2
      simp only [rootSize, hrebs, hcnt, hsz]
    · intro r' hr'
      simp only [Option.some.injEq] at hr'
      rw [← hr']
      exact rebuildAlong_kinds (fun m => attachChild_isFile m chain)
        (fun m hm => kindsOk_attachChild hm hk) (Path_getDepth target) r 2 hkr
  · rw [FT_insertFile_err h he]
    exact hs

theorem FT_rmDir_ok {s : FTState} {p : String} {e : FTStatus} {s2 : FTState}
    (h : FT_rmDir s p = (e, s2)) (hs : stateOk s) : stateOk s2 := by
  unfold FT_rmDir at h
  split at h
  · injection h with h1 h2; rw [← h2]; exact hs
  · next st n heq =>
    split at h
    · injection h with h1 h2; rw [← h2]; exact hs
    · injection h with h1 h2
      rw [← h2]
      obtain ⟨hst, hinit, target, r, hP, hroot, hpre, htst, htfu, hnp⟩ :=
        FT_findNode_success heq
      have hcur : r.path = Path_firstN target (2 - 1) := by
        simpa using (Path_comparePath_eq_iff _ _).mp hpre
      have hd1' := Path_new_ok_length hP
      by_cases hd1 : Path_getDepth target = 1
      · have hexit := travLoop_exit target (Path_getDepth target) r 2 false (by omega)
        rw [hexit] at htfu
        simp only [Option.some.injEq] at htfu
        have hcnt : s.count = Node.size n := by
          have := hs.1
          rw [hroot] at this
          simp only [rootSize] at this
          rw [this, htfu]
        have hnc : s.count - Node.size n = 0 := by omega
        constructor
        · simp [hnc, rootSize]
        · intro r' hr'
          simp [hnc] at hr'
      · have hd2 : 2 ≤ Path_getDepth target := by omega
        have hkr : kindsOk r = true := hs.2 r hroot
        have hsize := @travLoop_remove_size target (Path_getDepth target) r 2 false n
          (by omega) (by omega) hd2 hcur hkr htst htfu hnp
        have hcnt : s.count = Node.size r := by
          have := hs.1
          rw [hroot] at this
          simpa [rootSize] using this
        have hnc : s.count - Node.size n =
            Node.size (removeAlong target n.isFile (Path_getDepth target) r 2) := by
          omega
        have hpos := Node.size_pos (removeAlong target n.isFile (Path_getDepth target) r 2)
        constructor
        · simp only [hroot, hnp, hnc, if_neg hd1, if_neg (by omega :
            ¬ Node.size (removeAlong target n.isFile (Path_getDepth target) r 2) = 0),
            rootSize]
        · intro r' hr'
          simp only [hroot, hnp, hnc, if_neg hd1, if_neg (by omega :
            ¬ Node.size (removeAlong target n.isFile (Path_getDepth target) r 2) = 0),
            Option.some.injEq] at hr'
          rw [← hr']
          exact removeAlong_kinds target n.isFile (Path_getDepth target) r 2 hkr

theorem FT_rmFile_ok {s : FTState} {p : String} {e : FTStatus} {s2 : FTState}
    (h : FT_rmFile s p = (e, s2)) (hs : stateOk s) : stateOk s2 := by
  unfold FT_rmFile at h
  split at h
  · injection h with h1 h2; rw [← h2]; exact hs
  · next st n heq =>
    split at h
    · injection h with h1 h2; rw [← h2]; exact hs
    · injection h with h1 h2
      rw [← h2]
      obtain ⟨hst, hinit, target, r, hP, hroot, hpre, htst, htfu, hnp⟩ :=
        FT_findNode_success heq
      have hcur : r.path = Path_firstN target (2 - 1) := by
        simpa using (Path_comparePath_eq_iff _ _).mp hpre
      have hd1' := Path_new_ok_length hP
      by_cases hd1 : Path_getDepth target = 1
      · have hexit := travLoop_exit target (Path_getDepth target) r 2 false (by omega)
        rw [hexit] at htfu
        simp only [Option.some.injEq] at htfu
        have hcnt : s.count = Node.size n := by
          have := hs.1
          rw [hroot] at this
          simp only [rootSize] at this
          rw [this, htfu]
        have hnc : s.count - Node.size n = 0 := by omega
        constructor
        · simp [hnc, rootSize]
        · intro r' hr'
          simp [hnc] at hr'
      · have hd2 : 2 ≤ Path_getDepth target := by omega
        have hkr : kindsOk r = true := hs.2 r hroot
        have hsize := @travLoop_remove_size target (Path_getDepth target) r 2 false n
          (by omega) (by omega) hd2 hcur hkr htst htfu hnp
        have hcnt : s.count = Node.size r := by
          have := hs.1
          rw [hroot] at this
          simpa [rootSize] using this
        have hnc : s.count - Node.size n =
            Node.size (removeAlong target n.isFile (Path_getDepth target) r 2) := by
          omega
        have hpos := Node.size_pos (removeAlong target n.isFile (Path_getDepth target) r 2)
        constructor
        · simp only [hroot, hnp, hnc, if_neg hd1, if_neg (by omega :
            ¬ Node.size (removeAlong target n.isFile (Path_getDepth target) r 2) = 0),
            rootSize]
        · intro r' hr'
          simp only [hroot, hnp, hnc, if_neg hd1, if_neg (by omega :
            ¬ Node.size (removeAlong target n.isFile (Path_getDepth target) r 2) = 0),
            Option.some.injEq] at hr'
          rw [← hr']
          exact removeAlong_kinds target n.isFile (Path_getDepth target) r 2 hkr

theorem applyOp_ok (s : FTState) (op : FTOp) (hs : stateOk s) :
    stateOk (applyOp s op) := by
  cases op with
  | opInit => exact FT_init_ok rfl hs
  | opInsertDir p a => exact FT_insertDir_ok rfl hs
  | opInsertFile p b l a => exact FT_insertFile_ok rfl hs
  | opRmDir p => exact FT_rmDir_ok rfl hs
  | opRmFile p => exact FT_rmFile_ok rfl hs
  | opDestroy => exact FT_destroy_ok rfl hs

theorem runOps_ok (ops : List FTOp) : stateOk (runOps ops) := by
  have hgen : ∀ (l : List FTOp) (s : FTState), stateOk s →
      stateOk (l.foldl applyOp s) := by
    intro l
    induction l with
    | nil => intro s hs; exact hs
    | cons op rest ih =>
      intro s hs
      exact ih (applyOp s op) (applyOp_ok s op hs)
  exact hgen ops FTState.start
    ⟨rfl, by intro r hr; exact absurd hr (by simp [FTState.start])⟩

theorem FT_insertFile_then_find {s : FTState} {p : String} {buf : Option (List Nat)}
    {len : Nat} {allocs : List Bool} {s' : FTState}
    (h : FT_insertFile s p buf len allocs = (.success, s')) :
    ∃ target, Path_new p = .ok target ∧
      FT_findNode s' p = (.success, some (newFileNode target buf len)) := by
  obtain ⟨target, r, deep, chain, rest, hinit, hP, hroot, hpre, htrec, hlt, hbc, hs2⟩ :=
    FT_insertFile_success h
  refine ⟨target, hP, ?_⟩
  have hreb_path : (rebuildAlong target (fun n => attachChild n chain)
      (Path_getDepth target) r 2).path = r.path :=
    rebuildAlong_path (fun m => attachChild_path m chain) _ r 2
  have hrpe : r.path = Path_firstN target 1 := (Path_comparePath_eq_iff _ _).mp hpre
  have hwalk := @travLoop_rebuild target buf len allocs rest chain deep
      (Path_getDepth target) r 2 false (by omega) (by omega)
      (by simpa using hrpe) htrec hlt hbc
  have hpre2 : ¬ Path_comparePath (rebuildAlong target (fun n => attachChild n chain)
      (Path_getDepth target) r 2).path (Path_firstN target 1) ≠ Ordering.eq := by
    rw [hreb_path, hrpe]
    simp [Path_comparePath_self]
  have hend : Path_comparePath (newFileNode target buf len).path target =
      Ordering.eq := by
    rw [show (newFileNode target buf len).path = target from rfl]
    exact Path_comparePath_self target
  rw [hs2]
  unfold FT_findNode
  simp only [Bool.not_true, Bool.false_eq_true, if_false, hP]
  simp only [FT_traversePath, if_neg hpre2, hwalk]
  simp only [ne_eq, not_true_eq_false, if_false, if_neg (not_not_intro hend)]

/-! ### The checker and the parent-path contract -/

mutual
/-- Stated from the spec's wording of the parent-path contract (§3.2),
    restricted to its shared-prefix half: every node of a child array shares
    with its parent's path a segment head of the parent's full depth,
    recursively below directories (files are leaves; the checker never
    descends below a file, checkerFT.c:189). -/
def prefixContractOk (parentPath : Option (List String)) (n : Node) : Bool :=
  match n with
  | .mk p f _ _ fs ds =>
    (match parentPath with
     | none => true
     | some pp => Path_getSharedPrefixDepth p pp == Path_getDepth pp) &&
    (if f then true else prefixContractList p fs && prefixContractList p ds)

def prefixContractList (pp : List String) : List Node → Bool
  | [] => true
  | c :: cs => prefixContractOk (some pp) c && prefixContractList pp cs
end

mutual
theorem validateTree_sound (parentPath : Option (List String)) (n : Node) :
    ∀ (seen : List Node), (CheckerFT_validateTree parentPath n seen).1 = true →
    prefixContractOk parentPath n = true := by
  cases n with
  | mk p f c l fs ds =>
    intro seen h
    unfold CheckerFT_validateTree at h
    split at h
    · exact absurd h (by simp)
    · next hvalid =>
      have hvalid' : CheckerFT_Node_isValid parentPath (.mk p f c l fs ds) = true := by
        cases hv : CheckerFT_Node_isValid parentPath (.mk p f c l fs ds)
        · rw [hv] at hvalid; exact absurd rfl hvalid
        · rfl
      split at h
      · exact absurd h (by simp)
      · simp only [] at h
        unfold prefixContractOk
        unfold CheckerFT_Node_isValid at hvalid'
        rw [Bool.and_eq_true]
        refine ⟨by simpa [Node.path_mk] using hvalid', ?_⟩
        split at h
        · next hf => simp [hf]
        · next hf =>
          split at h
          · exact absurd h (by simp)
          · split at h
            · next heq2 => simp at h
            · next seen2 heq2 =>
              have hds : (CheckerFT_validateList p ds (seen ++ [Node.mk p f c l fs ds])).1
                  = true := by rw [heq2]
              have hfs : (CheckerFT_validateList p fs seen2).1 = true := h
              rw [if_neg hf, Bool.and_eq_true]
              exact ⟨validateList_sound p fs seen2 hfs,
                validateList_sound p ds _ hds⟩

theorem validateList_sound (pp : List String) (cs : List Node) :
    ∀ (seen : List Node), (CheckerFT_validateList pp cs seen).1 = true →
    prefixContractList pp cs = true := by
  cases cs with
  | nil => intro seen _; rfl
  | cons c rest =>
    intro seen h
    unfold CheckerFT_validateList at h
    split at h
    · next heq => simp at h
    · next seen' heq =>
      have hc : (CheckerFT_validateTree (some pp) c seen).1 = true := by rw [heq]
      unfold prefixContractList
      rw [Bool.and_eq_true]
      exact ⟨validateTree_sound (some pp) c seen hc, validateList_sound pp rest seen' h⟩
end

theorem Node.contents_mk (p : List String) (f : Bool) (c : Option (List Nat))
    (l : Nat) (fs ds : List Node) : (Node.mk p f c l fs ds).contents = c := rfl

/-- The first `len` bytes a caller reads out of an FT contents buffer; a
    NULL buffer reads as no bytes. -/
def firstBytes (len : Nat) (o : Option (List Nat)) : List Nat :=
  (o.getD []).take len

/-! ### The claims -/

/-- C1: whenever FT_insertDir or FT_insertFile returns a non-SUCCESS code,
    the façade state (root, node count and the whole node structure) after
    the call equals the state before it — every error return is atomic,
    including allocation failures partway through building the new chain. -/
theorem C1_insert_error_atomic (s : FTState) (p : String) (buf : Option (List Nat))
    (len : Nat) (allocs : List Bool) :
    ((FT_insertDir s p allocs).1 ≠ .success → (FT_insertDir s p allocs).2 = s) ∧
    ((FT_insertFile s p buf len allocs).1 ≠ .success →
      (FT_insertFile s p buf len allocs).2 = s) :=
  ⟨fun h => FT_insertDir_err rfl h, fun h => FT_insertFile_err rfl h⟩

theorem C1_insert_error_atomic_witness :
    (FT_insertDir FTState.start "a" []).1 ≠ .success ∧
    (FT_insertDir FTState.start "a" []).2 = FTState.start ∧
    (FT_insertFile FTState.start "a/b" (some [1]) 1 []).1 ≠ .success ∧
    (FT_insertFile FTState.start "a/b" (some [1]) 1 []).2 = FTState.start :=
  ⟨by decide,
   (C1_insert_error_atomic FTState.start "a" (some [1]) 1 []).1 (by decide),
   by decide,
   (C1_insert_error_atomic FTState.start "a/b" (some [1]) 1 []).2 (by decide)⟩

/-- C2: refuted at ft.c:461-477 and ft.c:361-380 — the bIsFile test on the
    traversal runs before the exact-match test, and FT_traversePath sets
    bIsFile as soon as the deepest node it reaches is a file, even when
    that node IS the target.  So on a tree holding directory "r" and file
    "r/f", inserting at the exact existing file path "r/f" returns
    NOT_A_DIRECTORY from both FT_insertDir and FT_insertFile, not the
    ALREADY_IN_TREE the spec (and ft.c:330-334's own contract) requires;
    no proper prefix of "r/f" resolves to a file here. -/
theorem C2_exact_file_path_not_alreadyInTree :
    FT_containsFile
      (FT_insertFile (FT_insertDir (FT_init FTState.start).2 "r" []).2
        "r/f" (some [1]) 1 []).2 "r/f" = true ∧
    (FT_insertDir
      (FT_insertFile (FT_insertDir (FT_init FTState.start).2 "r" []).2
        "r/f" (some [1]) 1 []).2 "r/f" []).1 = .notADirectory ∧
    (FT_insertFile
      (FT_insertFile (FT_insertDir (FT_init FTState.start).2 "r" []).2
        "r/f" (some [1]) 1 []).2 "r/f" (some [2]) 1 []).1 = .notADirectory := by
  decide

/-- C3: refuted at ft.c:458 — FT_insertFile maps a NULL traversal result
    to CONFLICTING_PATH unconditionally, so on an initialized EMPTY tree
    (root NULL, where no conflict is possible and FT_insertDir happily
    builds the chain) inserting the depth-2 file "a/b" fails with
    CONFLICTING_PATH and creates nothing, contradicting the spec and the
    function's own header comment. -/
theorem C3_empty_tree_insertFile_conflictingPath :
    (FT_insertFile (FT_init FTState.start).2 "a/b" (some [104, 105]) 2 []).1
        = .conflictingPath ∧
    (FT_insertFile (FT_init FTState.start).2 "a/b" (some [104, 105]) 2 []).2.root
        = none ∧
    (FT_insertFile (FT_init FTState.start).2 "a/b" (some [104, 105]) 2 []).2.count
        = 0 ∧
    (FT_insertDir (FT_init FTState.start).2 "a/b" []).1 = .success :=
  ⟨by decide, rfl, by decide, by decide⟩

/-- C4: after any sequence of FT_init, FT_insertDir, FT_insertFile,
    FT_rmDir, FT_rmFile and FT_destroy calls, under any allocation oracle,
    the façade's node count equals the number of nodes reachable from the
    root, and is 0 when the root is NULL. -/
theorem C4_count_reachable (ops : List FTOp) :
    (runOps ops).count = rootSize (runOps ops).root ∧
    ((runOps ops).root = none → (runOps ops).count = 0) := by
  obtain ⟨h1, _⟩ := runOps_ok ops
  exact ⟨h1, fun hr => by rw [h1, hr]; rfl⟩

theorem C4_count_reachable_witness :
    (runOps [FTOp.opInit]).count = rootSize (runOps [FTOp.opInit]).root ∧
    (runOps [FTOp.opInit]).count = 0 :=
  ⟨(C4_count_reachable [FTOp.opInit]).1, (C4_count_reachable [FTOp.opInit]).2 rfl⟩

/-- C5 (amended): CheckerFT_Node_isValid checks only the shared-prefix
    half of the parent-path contract (checkerFT.c:36-44), so what the
    checker guarantees is: on an initialized FT it returns true only if
    every non-root node reachable below a directory has a path sharing a
    prefix of its parent's full depth with the parent's path.  The
    depth(child) = depth(parent) + 1 half of the claim is not checked (see
    the counterexample). -/
theorem C5_checker_prefix_half_only (root : Node) (count : Nat)
    (h : CheckerFT_isValid true (some root) count = true) :
    prefixContractOk none root = true := by
  have h' : (if (CheckerFT_validateTree none root []).2.length != count then false
      else (CheckerFT_validateTree none root []).1) = true := h
  split at h'
  · exact absurd h' (by simp)
  · exact validateTree_sound none root [] h'

theorem C5_checker_prefix_half_only_witness :
    CheckerFT_isValid true
      (some (.mk ["a"] false none 0 [.mk ["a", "b"] true none 0 [] []] [])) 2
      = true ∧
    prefixContractOk none
      (.mk ["a"] false none 0 [.mk ["a", "b"] true none 0 [] []] []) = true :=
  ⟨by decide,
   C5_checker_prefix_half_only
     (.mk ["a"] false none 0 [.mk ["a", "b"] true none 0 [] []] []) 2 (by decide)⟩

/-- C5 counterexample: a two-node tree whose only child has path "a/b/c"
    under root "a" — it violates depth(child) = depth(parent) + 1, yet the
    checker accepts the tree, because checkerFT.c:36-44 only tests the
    shared-prefix depth (which holds here: the shared prefix of "a/b/c"
    and "a" has the parent's full depth 1). -/
theorem C5_counterexample :
    CheckerFT_isValid true
      (some (.mk ["a"] false none 0 []
        [.mk ["a", "b", "c"] false none 0 [] []])) 2 = true ∧
    Path_getSharedPrefixDepth ["a", "b", "c"] ["a"] = Path_getDepth ["a"] ∧
    Path_getDepth ["a", "b", "c"] ≠ Path_getDepth ["a"] + 1 := by
  decide

/-- C6: the spec's scenario S2 — after init, insert_dir "r",
    insert_file "r/d/f.txt" "hi" 2, insert_dir "r/d/e",
    insert_file "r/g" "x" 1 all succeed, and FT_toString prints exactly
    the five lines Dir r, File r/g, Dir r/d, File r/d/f.txt, Dir r/d/e in
    pre-order with file children before directory children, each child
    group in ascending path order. -/
theorem C6_scenario_S2_toString :
    (FT_insertDir (FT_init FTState.start).2 "r" []).1 = .success ∧
    (FT_insertFile (FT_insertDir (FT_init FTState.start).2 "r" []).2
      "r/d/f.txt" (some [104, 105]) 2 []).1 = .success ∧
    (FT_insertDir (FT_insertFile (FT_insertDir (FT_init FTState.start).2 "r" []).2
      "r/d/f.txt" (some [104, 105]) 2 []).2 "r/d/e" []).1 = .success ∧
    (FT_insertFile (FT_insertDir (FT_insertFile
      (FT_insertDir (FT_init FTState.start).2 "r" []).2
      "r/d/f.txt" (some [104, 105]) 2 []).2 "r/d/e" []).2
      "r/g" (some [120]) 1 []).1 = .success ∧
    FT_toString (FT_insertFile (FT_insertDir (FT_insertFile
      (FT_insertDir (FT_init FTState.start).2 "r" []).2
      "r/d/f.txt" (some [104, 105]) 2 []).2 "r/d/e" []).2
      "r/g" (some [120]) 1 []).2 =
      some "Dir:  r\nFile: r/g\nDir:  r/d\nFile: r/d/f.txt\nDir:  r/d/e\n" := by
  decide

/-- C7: when FT_insertFile succeeds, an immediately following
    FT_getFileContents on the same path returns a buffer whose first len
    bytes equal the caller's buffer (NodeFT_setContents stores an
    independent copy of those bytes, nodeFT.c:633-639, so the equality is
    of values, not of aliases). -/
theorem C7_insert_then_get (s s' : FTState) (p : String) (buf : Option (List Nat))
    (len : Nat) (allocs : List Bool)
    (h : FT_insertFile s p buf len allocs = (.success, s')) :
    firstBytes len (FT_getFileContents s' p) = firstBytes len buf := by
  obtain ⟨target, hP, hfind⟩ := FT_insertFile_then_find h
  unfold FT_getFileContents
  rw [hfind]
  simp only [newFileNode, Node.isFile_mk, Node.contents_mk, Bool.not_true,
    Bool.false_eq_true, if_false]
  cases buf with
  | none => rfl
  | some b =>
    by_cases hl : 0 < len
    · simp [storedContents, hl, firstBytes, List.take_take]
    · have hl0 : len = 0 := by omega
      subst hl0
      rfl

theorem C7_insert_then_get_witness :
    firstBytes 2 (FT_getFileContents
      (FT_insertFile (FT_insertDir (FT_init FTState.start).2 "u" []).2
        "u/v" (some [9, 8, 7]) 2 []).2 "u/v") = firstBytes 2 (some [9, 8, 7]) :=
  C7_insert_then_get (FT_insertDir (FT_init FTState.start).2 "u" []).2
    (FT_insertFile (FT_insertDir (FT_init FTState.start).2 "u" []).2
      "u/v" (some [9, 8, 7]) 2 []).2 "u/v" (some [9, 8, 7]) 2 [] (by rfl)

/-- C8: on any path FT_findNode resolves to an existing node, removal with
    the wrong kind fails and leaves the state untouched — FT_rmFile on a
    directory returns NOT_A_FILE and FT_rmDir on a file returns
    NOT_A_DIRECTORY (ft.c:541-544, ft.c:572-575). -/
theorem C8_rm_wrong_kind (s : FTState) (p : String) (st : FTStatus) (n : Node)
    (h : FT_findNode s p = (st, some n)) :
    (n.isFile = false → FT_rmFile s p = (.notAFile, s)) ∧
    (n.isFile = true → FT_rmDir s p = (.notADirectory, s)) := by
  constructor
  · intro hn
    unfold FT_rmFile
    rw [h]
    simp [hn]
  · intro hn
    unfold FT_rmDir
    rw [h]
    simp [hn]

theorem C8_rm_wrong_kind_witness :
    FT_rmFile (FT_insertFile (FT_insertDir (FT_init FTState.start).2 "m" []).2
        "m/n" (some [1]) 1 []).2 "m"
      = (.notAFile,
        (FT_insertFile (FT_insertDir (FT_init FTState.start).2 "m" []).2
          "m/n" (some [1]) 1 []).2) ∧
    FT_rmDir (FT_insertFile (FT_insertDir (FT_init FTState.start).2 "m" []).2
        "m/n" (some [1]) 1 []).2 "m/n"
      = (.notADirectory,
        (FT_insertFile (FT_insertDir (FT_init FTState.start).2 "m" []).2
          "m/n" (some [1]) 1 []).2) :=
  ⟨(C8_rm_wrong_kind
      (FT_insertFile (FT_insertDir (FT_init FTState.start).2 "m" []).2
        "m/n" (some [1]) 1 []).2 "m" .success
      (.mk ["m"] false none 0 [.mk ["m", "n"] true (some [1]) 1 [] []] [])
      (by rfl)).1 rfl,
   (C8_rm_wrong_kind
      (FT_insertFile (FT_insertDir (FT_init FTState.start).2 "m" []).2
        "m/n" (some [1]) 1 []).2 "m/n" .success
      (.mk ["m", "n"] true (some [1]) 1 [] [])
      (by rfl)).2 rfl⟩

/-- C9: on any initialized state, FT_insertFile at a well-formed path of
    depth 1 returns CONFLICTING_PATH before even traversing — a file can
    never be the root (ft.c:443-450) — regardless of the tree contents. -/
theorem C9_depth1_insertFile (s : FTState) (p : String) (buf : Option (List Nat))
    (len : Nat) (allocs : List Bool) (target : List String)
    (hinit : s.isInit = true) (hP : Path_new p = .ok target)
    (hd : Path_getDepth target = 1) :
    FT_insertFile s p buf len allocs = (.conflictingPath, s) := by
  unfold FT_insertFile
  rw [hinit, hP]
  simp [hd]

theorem C9_depth1_insertFile_witness :
    FT_insertFile (FT_init FTState.start).2 "top" (some [1]) 1 []
      = (.conflictingPath, (FT_init FTState.start).2) :=
  C9_depth1_insertFile (FT_init FTState.start).2 "top" (some [1]) 1 [] ["top"]
    (by rfl) (by rfl) (by rfl)

/-- C10: a file successfully inserted with a NULL buffer or zero length
    stores NULL contents (nodeFT.c:641-645), so FT_getFileContents on its
    path returns NULL although the file exists (FT_containsFile is true):
    a NULL result from FT_getFileContents does not by itself indicate
    failure or absence. -/
theorem C10_null_contents_get (s s' : FTState) (p : String)
    (buf : Option (List Nat)) (len : Nat) (allocs : List Bool)
    (h : FT_insertFile s p buf len allocs = (.success, s'))
    (hnull : buf = none ∨ len = 0) :
    FT_getFileContents s' p = none ∧ FT_containsFile s' p = true := by
  obtain ⟨target, hP, hfind⟩ := FT_insertFile_then_find h
  have hsc : storedContents buf len = none := by
    rcases hnull with h0 | h0
    · rw [h0]; rfl
    · cases buf
      · rfl
      · rw [h0]; simp [storedContents]
  constructor
  · unfold FT_getFileContents
    rw [hfind]
    simp [newFileNode, Node.isFile_mk, Node.contents_mk, hsc]
  · unfold FT_containsFile
    rw [hfind]
    simp [newFileNode, Node.isFile_mk]

theorem C10_null_contents_get_witness :
    FT_getFileContents
      (FT_insertFile (FT_insertDir (FT_init FTState.start).2 "w" []).2
        "w/x" none 0 []).2 "w/x" = none ∧
    FT_containsFile
      (FT_insertFile (FT_insertDir (FT_init FTState.start).2 "w" []).2
        "w/x" none 0 []).2 "w/x" = true :=
  C10_null_contents_get (FT_insertDir (FT_init FTState.start).2 "w" []).2
    (FT_insertFile (FT_insertDir (FT_init FTState.start).2 "w" []).2
      "w/x" none 0 []).2 "w/x" none 0 [] (by rfl) (Or.inl rfl)
